import Mathlib

/-!
Verification of the dependency-resolution and batch-orchestration core of
openspec-flow against its natural-language specification.

The definitions below are a shallow embedding of the TypeScript source:

* `src/utils/dependencyResolver.ts` — `buildExecutionPlan`, `topologicalSort`
  (Kahn's algorithm over JS `Map`s, embedded as association lists preserving
  insertion order), `identifyParallelBatches`, `validateExecutionPlan`.
* `src/utils/swarmCoordinator.ts` (in-repo name; the orchestration half of
  the `configGenerator.ts` concatenation) — `executeExecutionPlan`,
  `executeParallelBatch`, `executeChange`, `destroySwarm`.  Remote MCP-bridge
  calls are abstracted as a deterministic oracle `Env` (outcome of pool init,
  of each parallel-spawn call, of each task orchestration), and the pool
  operations performed during a run are recorded in an explicit log.
* `src/utils/mcpBridge.ts` — `waitForTaskCompletion`, with the polled task
  status abstracted as an oracle `Nat → TaskStatus` (the k-th poll result)
  and logical time advancing by `pollIntervalMs` per sleep.

Loops that the source writes as `while`/unbounded `for` are embedded with an
explicit fuel argument; at every top-level entry point the fuel passed is
proved sufficient (the measure strictly decreases each iteration), so the
fuel-exhaustion branch is unreachable there.
-/

instance {ε α : Type} [DecidableEq ε] [DecidableEq α] : DecidableEq (Except ε α) :=
  fun x y =>
    match x, y with
    | .ok a, .ok b =>
        if h : a = b then .isTrue (by rw [h]) else .isFalse (by simp [h])
    | .error a, .error b =>
        if h : a = b then .isTrue (by rw [h]) else .isFalse (by simp [h])
    | .ok _, .error _ => .isFalse (by simp)
    | .error _, .ok _ => .isFalse (by simp)

namespace OSF

/-- Node status, `ExecutionNode.status` in `src/types.ts`. -/
inductive NodeStatus where
  | pending
  | ready
  | inProgress
  | completed
  | failed
  | blocked
deriving DecidableEq, Repr

/-- `ExecutionNode` of `src/types.ts`: the `changeId`, the extracted
`dependsOn` list and the mutable `status`.  The `change` payload,
`agentId` and the timestamps carry no information used by the claims and
are omitted. -/
structure Node where
  changeId : String
  dependsOn : List String
  status : NodeStatus
deriving DecidableEq, Repr

/-- `ExecutionPlan` of `src/types.ts`. -/
structure ExecutionPlan where
  changes : List Node
  executionOrder : List String
  parallelBatches : List (List String)
deriving DecidableEq, Repr

/-- The input to `buildExecutionPlan`: one change with the dependency ids its
proposal text yields under `extractDependencies`.  The free-text regex scan
itself is a lossy heuristic over markdown (spec §4.1) and is not modelled;
a dependency edge (p, d) of the claims is `p ∈ d.dependsOn`. -/
structure ChangeInput where
  changeId : String
  dependsOn : List String
deriving DecidableEq, Repr

/-! ### Association lists embedding JS `Map` (insertion order preserved) -/

/-- Insertion-ordered map from ids to in-degrees, as JS `Map<string, number>`. -/
abbrev DegMap := List (String × Int)

/-- `Map.has`. -/
def alHas (m : DegMap) (k : String) : Bool :=
  m.any (fun p => p.1 = k)

/-- `Map.get(k) || 0`: the stored value, `0` when the key is absent.
(For a present key `v`, the JS expression `v || 0` equals `v`, since
`0 || 0 = 0`.) -/
def alGetD (m : DegMap) (k : String) : Int :=
  match m.find? (fun p => p.1 = k) with
  | some p => p.2
  | none => 0

/-- `Map.set`: replace the first binding in place, else append (JS `Map.set`
keeps the original insertion position of an existing key). -/
def alSet : DegMap → String → Int → DegMap
  | [], k, v => [(k, v)]
  | p :: rest, k, v => if p.1 = k then (k, v) :: rest else p :: alSet rest k v

/-! ### topologicalSort (dependencyResolver.ts lines 134-185) -/

/-- `nodeMap.has(dep)`: whether some node carries this id. -/
def hasNode (nodes : List Node) (k : String) : Bool :=
  nodes.any (fun n => n.changeId = k)

/-- `new Map(nodes.map(n => [n.changeId, n])).get(k)`: with a JS `Map`
built from a list, a later duplicate key overwrites an earlier one, so the
lookup returns the last node with the id. -/
def nodeMapGet (nodes : List Node) (k : String) : Option Node :=
  nodes.reverse.find? (fun n => n.changeId = k)

/-- `if (!inDegree.has(k)) inDegree.set(k, 0)` — and, for a present key
`v`, the JS idiom `inDegree.set(k, inDegree.get(k) || 0)` stores the same
value back, so both spellings only ensure the entry exists. -/
def degEnsure (deg : DegMap) (k : String) : DegMap :=
  if alHas deg k then deg else alSet deg k 0

/-- The body of the in-degree loop over one node's `dependsOn`: for a
dependency present in the node map, ensure an entry for the dependency and
increment the node's own in-degree. -/
def inDegreeDep (nodes : List Node) (cid : String) (deg : DegMap) (dep : String) :
    DegMap :=
  if hasNode nodes dep then
    alSet (degEnsure deg dep) cid (alGetD (degEnsure deg dep) cid + 1)
  else deg

/-- The in-degree loop body for one node: ensure a (possibly zero) entry for
its id, then process its `dependsOn`. -/
def inDegreeNode (nodes : List Node) (deg : DegMap) (node : Node) : DegMap :=
  node.dependsOn.foldl (inDegreeDep nodes node.changeId)
    (degEnsure deg node.changeId)

/-- The in-degree computation loop of `topologicalSort`. -/
def buildInDegree (nodes : List Node) : DegMap :=
  nodes.foldl (inDegreeNode nodes) []

/-- The seed queue: ids whose in-degree entry is zero, in map insertion
order. -/
def seedQueue (deg : DegMap) : List String :=
  (deg.filter (fun p => p.2 = 0)).map (fun p => p.1)

/-- The body of the inner `for (const node of nodes)` loop of the sort's
`while`: when the node depends on the id `c` just dequeued, decrement its
in-degree, enqueueing it when the in-degree reaches zero. -/
def sortStepF (c : String) (st : List String × DegMap) (node : Node) :
    List String × DegMap :=
  if node.dependsOn.contains c then
    let nd := alGetD st.2 node.changeId - 1
    ((if nd = 0 then st.1 ++ [node.changeId] else st.1),
      alSet st.2 node.changeId nd)
  else st

/-- One full pass of the inner loop over all nodes. -/
def sortStep (nodes : List Node) (c : String) (st : List String × DegMap) :
    List String × DegMap :=
  nodes.foldl (sortStepF c) st

/-- The `while (queue.length > 0)` loop of `topologicalSort`, with fuel.
The fuel passed by `topologicalSort` is the measure
`queue.length + Σ max(0, degree)`, which strictly decreases every
iteration, so the fuel-exhaustion branch is unreachable. -/
def sortLoop (nodes : List Node) : Nat → List String → DegMap → List String → List String
  | _, [], _, sorted => sorted
  | 0, _ :: _, _, sorted => sorted
  | fuel + 1, c :: q, deg, sorted =>
      let st := sortStep nodes c (q, deg)
      sortLoop nodes fuel st.1 st.2 (sorted ++ [c])

/-- Sum of the clamped in-degrees, the termination measure component. -/
def degSum (m : DegMap) : Nat :=
  (m.map (fun p => p.2.toNat)).sum

/-- The ids enqueued during one `sortStep` pass, in push order: a mirror of
the fold used to reason about `sortStep`'s queue component. -/
def pushedList (c : String) : List Node → DegMap → List String
  | [], _ => []
  | n :: rest, deg =>
      if n.dependsOn.contains c then
        let nd := alGetD deg n.changeId - 1
        (if nd = 0 then [n.changeId] else []) ++
          pushedList c rest (alSet deg n.changeId nd)
      else pushedList c rest deg

/-- Number of node records with id `k` whose `dependsOn` contains `c`: the
number of in-degree decrements `k` receives when `c` is dequeued. -/
def decCount (nodes : List Node) (c k : String) : Nat :=
  (nodes.filter (fun n => n.changeId = k && n.dependsOn.contains c)).length

/-- Total in-degree contribution of the node records with id `k`: for each,
the number of its dependencies (with multiplicity) present in the node
map. -/
def mCount (nodes : List Node) (k : String) : Nat :=
  ((nodes.filter (fun n => n.changeId = k)).map
    (fun n => (n.dependsOn.filter (fun d => hasNode nodes d)).length)).sum

/-- Total number of decrements the id `k` has received after the ids of
`sorted` have been dequeued. -/
def sCount (nodes : List Node) (sorted : List String) (k : String) : Nat :=
  ((nodes.filter (fun n => n.changeId = k)).map
    (fun n => (sorted.filter (fun c => n.dependsOn.contains c)).length)).sum

/-- The termination measure of the sort's `while` loop. -/
def mu (q : List String) (deg : DegMap) : Nat :=
  q.length + degSum deg

/-- The error thrown by `topologicalSort` when the sorted length differs
from the node count. -/
def circularMsg : String :=
  "Circular dependency detected in OpenSpec changes. Cannot create execution plan."

/-- `topologicalSort(nodes)`: Kahn's algorithm; `Except.error` embeds the
thrown `Error`. -/
def topologicalSort (nodes : List Node) : Except String (List String) :=
  let deg := buildInDegree nodes
  let q := seedQueue deg
  let sorted := sortLoop nodes (q.length + degSum deg) q deg []
  if sorted.length = nodes.length then .ok sorted else .error circularMsg

/-! ### identifyParallelBatches (dependencyResolver.ts lines 190-234) -/

/-- `hasConflict`: a candidate id conflicts with a batch member when either
directly depends on the other (optional chaining on a missing batch node
yields `undefined`, falsy). -/
def hasConflict (nodes : List Node) (node : Node) (id : String)
    (batch : List String) : Bool :=
  batch.any (fun bid =>
    (match nodeMapGet nodes bid with
     | some bn => bn.dependsOn.contains id
     | none => false)
    || node.dependsOn.contains bid)

/-- Append the id to the first batch it does not conflict with, else open a
new batch. -/
def addToBatches (nodes : List Node) (node : Node) (id : String) :
    List (List String) → List (List String)
  | [] => [[id]]
  | b :: bs =>
      if hasConflict nodes node id b then b :: addToBatches nodes node id bs
      else (b ++ [id]) :: bs

/-- The `for (const changeId of executionOrder)` loop: a missing node is
skipped entirely (the JS `continue` also skips the `completed.add`); a node
whose dependencies are not all in `completed` is not placed in any batch
but is still added to `completed`. -/
def batchLoop (nodes : List Node) :
    List String → List (List String) → List String → List (List String)
  | [], batches, _ => batches
  | id :: rest, batches, completedIds =>
      match nodeMapGet nodes id with
      | none => batchLoop nodes rest batches completedIds
      | some node =>
          let canRun := node.dependsOn.all (fun d => completedIds.contains d)
          let batches := if canRun then addToBatches nodes node id batches else batches
          batchLoop nodes rest batches (completedIds ++ [id])

/-- `identifyParallelBatches(nodes, executionOrder)`. -/
def identifyParallelBatches (nodes : List Node) (executionOrder : List String) :
    List (List String) :=
  batchLoop nodes executionOrder [] []

/-! ### buildExecutionPlan (dependencyResolver.ts lines 103-129) -/

/-- The node-construction step of `buildExecutionPlan`:
`dependencies.find(d => d.changeId === change.changeId)` takes the first
input with the same id (`dep?.dependsOn || []` never falls back: `find`
always succeeds and an empty JS array is truthy). -/
def planNodes (inputs : List ChangeInput) : List Node :=
  inputs.map (fun it =>
    { changeId := it.changeId
      dependsOn :=
        match inputs.find? (fun d => d.changeId = it.changeId) with
        | some d => d.dependsOn
        | none => []
      status := .pending })

/-- `buildExecutionPlan(changes)`. -/
def buildExecutionPlan (inputs : List ChangeInput) : Except String ExecutionPlan :=
  let nodes := planNodes inputs
  match topologicalSort nodes with
  | .error e => .error e
  | .ok executionOrder =>
      .ok { changes := nodes
            executionOrder := executionOrder
            parallelBatches := identifyParallelBatches nodes executionOrder }

/-! ### validateExecutionPlan (dependencyResolver.ts lines 239-260) -/

/-- The error string pushed for a dangling dependency. -/
def vErrMsg (changeId dep : String) : String :=
  "Change " ++ changeId ++ " depends on " ++ dep ++ ", but " ++ dep ++
    " is not in the batch."

/-- `validateExecutionPlan(plan)`: `(valid, errors)`. -/
def validateExecutionPlan (plan : ExecutionPlan) : Bool × List String :=
  let errors :=
    (plan.changes.map (fun node =>
      (node.dependsOn.filter (fun dep => !(hasNode plan.changes dep))).map
        (vErrMsg node.changeId))).flatten
  (errors.isEmpty, errors)

/-- Whether `y`'s node (nodeMap lookup) lists `x` among its `dependsOn`
(`false` when no node carries id `y`): the direct-dependency test used by
the batch conflict check. -/
def dependsB (nodes : List Node) (x y : String) : Bool :=
  match nodeMapGet nodes y with
  | some n => n.dependsOn.contains x
  | none => false

/-- No member of the batch directly depends on another member. -/
def pairFree (nodes : List Node) (b : List String) : Prop :=
  ∀ x ∈ b, ∀ y ∈ b, x ≠ y → dependsB nodes x y = false

/-- A dependency edge (p, d) among the built nodes, both endpoints present:
some node with id `d` lists `p` in its `dependsOn`, and some node carries
id `p`. -/
def hasEdge (nodes : List Node) (p d : String) : Prop :=
  hasNode nodes p = true ∧ ∃ n ∈ nodes, n.changeId = d ∧ p ∈ n.dependsOn

instance (nodes : List Node) (p d : String) : Decidable (hasEdge nodes p d) :=
  decidable_of_iff
    (hasNode nodes p = true ∧ ∃ n ∈ nodes, n.changeId = d ∧ p ∈ n.dependsOn)
    Iff.rfl

/-- The conclusion the sort loop establishes about its output list. -/
def SortedOut (nodes : List Node) (out : List String) : Prop :=
  out.Nodup ∧ (∀ x ∈ out, hasNode nodes x = true) ∧
    (∀ n ∈ nodes, n.changeId ∈ out → ∀ p ∈ n.dependsOn,
      hasNode nodes p = true →
        p ∈ out ∧ List.indexOf p out < List.indexOf n.changeId out)

/-! ### Batch orchestration (swarmCoordinator.ts: executeExecutionPlan,
executeParallelBatch, executeChange, destroySwarm)

The MCP bridge is an external asynchronous service; its outcomes are
abstracted as the oracle `Env` below, and every pool-level operation the
orchestrator performs is recorded in a log of `PoolOp`s. -/

/-- A pool-level operation issued through the MCP bridge during a run. -/
inductive PoolOp where
  /-- `mcpBridge.initializeSwarm` (from `initializeSwarm`). -/
  | initPool
  /-- `mcpBridge.spawnAgentsParallel` for the listed node ids
  (from `executeParallelBatch`). -/
  | spawnBatch (ids : List String)
  /-- `mcpBridge.orchestrateTask` for the node (from `executeChange`). -/
  | orchestrate (id : String)
  /-- `mcpBridge.destroySwarm` (from `destroySwarm`). -/
  | destroyPool
deriving DecidableEq, Repr

/-- Outcomes of the remote MCP-bridge calls: whether pool initialization
succeeds, whether the k-th `spawnAgentsParallel` call succeeds, whether the
task orchestration for a given change id succeeds, and whether
`waitForTaskCompletion` for a given change id reports success (the last is
reachable only when `executeChange` is called with
`waitForCompletion = true`). -/
structure Env where
  initOk : Bool
  spawnOk : Nat → Bool
  orchOk : String → Bool
  waitOk : String → Bool

/-- The dependency gate of `executeExecutionPlan`'s batch loop: every node
of the current batch is marked `ready` when all its `dependsOn` ids are in
the run's `completedChanges`, else `blocked`.  Nodes outside the batch are
untouched. -/
def gateNode (completedIds : List String) (batchIds : List String) (n : Node) : Node :=
  if batchIds.contains n.changeId then
    if n.dependsOn.all (fun d => completedIds.contains d) then
      { n with status := .ready }
    else
      { n with status := .blocked }
  else n

/-- The per-node effect of `executeChange` (as called from
`executeParallelBatch` with `waitForCompletion` left at its default
`false`) on a `ready` node of the batch: the node is set `in-progress`,
the task is orchestrated, and on orchestration failure the node is marked
`failed` (the rethrown error is absorbed by the `.catch` in
`executeParallelBatch`); on success the node stays `in-progress` and the
call returns without waiting. -/
def execNode (env : Env) (batchIds : List String) (n : Node) : Node :=
  if batchIds.contains n.changeId && n.status == .ready then
    if env.orchOk n.changeId then { n with status := .inProgress }
    else { n with status := .failed }
  else n

/-- The status a batch-member node ends with, given that the run's
`completedChanges` set is empty when its batch is processed (which, with
`waitForCompletion` left `false`, is always the case): `blocked` when it
has any dependency, else `failed`/`in-progress` by its orchestration
outcome. -/
def nodeOutcome (env : Env) (n : Node) : NodeStatus :=
  if n.dependsOn.isEmpty then
    (if env.orchOk n.changeId then .inProgress else .failed)
  else .blocked

/-- State threaded through the batch loop of `executeExecutionPlan`. -/
structure RunSt where
  nodes : List Node
  completedChanges : List String
  failedChanges : List String
  spawnIdx : Nat
  log : List PoolOp
  aborted : Bool
deriving Repr

/-- The batch's nodes after the dependency gate. -/
def gatedNodes (batchIds : List String) (st : RunSt) : List Node :=
  st.nodes.map (gateNode st.completedChanges batchIds)

/-- The ids of the batch's `ready` nodes, in node-list order (the
`readyNodes` handed to `executeParallelBatch`). -/
def readyIdsOf (batchIds : List String) (st : RunSt) : List String :=
  ((gatedNodes batchIds st).filter
    (fun n => batchIds.contains n.changeId && n.status == .ready)).map
    (fun n => n.changeId)

/-- One iteration of the batch loop: gate the batch's nodes, and when any
are ready, run `executeParallelBatch` on them — one parallel-spawn call
(whose failure throws, aborting the loop), then one task orchestration per
ready node, then record `completed`/`failed` ids from the nodes' statuses. -/
def runBatch (env : Env) (batchIds : List String) (st : RunSt) : RunSt :=
  if (readyIdsOf batchIds st).isEmpty then
    { st with nodes := gatedNodes batchIds st }
  else if env.spawnOk st.spawnIdx then
    { nodes := (gatedNodes batchIds st).map (execNode env batchIds)
      completedChanges := st.completedChanges ++
        ((((gatedNodes batchIds st).map (execNode env batchIds)).filter
          (fun n => batchIds.contains n.changeId && n.status == .completed)).map
          (fun n => n.changeId))
      failedChanges := st.failedChanges ++
        ((((gatedNodes batchIds st).map (execNode env batchIds)).filter
          (fun n => batchIds.contains n.changeId && n.status == .failed)).map
          (fun n => n.changeId))
      spawnIdx := st.spawnIdx + 1
      log := st.log ++ [PoolOp.spawnBatch (readyIdsOf batchIds st)] ++
        (readyIdsOf batchIds st).map PoolOp.orchestrate
      aborted := false }
  else
    { st with
      nodes := gatedNodes batchIds st
      log := st.log ++ [PoolOp.spawnBatch (readyIdsOf batchIds st)]
      aborted := true }

/-- The `for` loop over `plan.parallelBatches`; an exception thrown by
`executeParallelBatch` (a spawn failure) aborts the remaining iterations
and is handled by the surrounding `catch`. -/
def runBatches (env : Env) : List (List String) → RunSt → RunSt
  | [], st => st
  | bids :: rest, st =>
      if st.aborted then st else runBatches env rest (runBatch env bids st)

/-- `BatchExecutionResult` (the fields the claims are about; the elapsed
time and summary string are wall-clock bookkeeping). -/
structure BatchResult where
  success : Bool
  completedChanges : List String
  failedChanges : List String
deriving DecidableEq, Repr

/-- What a finished `executeExecutionPlan` run yields: the final node
records, the returned result, and the pool operations performed. -/
structure RunOut where
  nodes : List Node
  result : BatchResult
  log : List PoolOp
deriving DecidableEq, Repr

/-- The initial loop state: all plan nodes, empty completed/failed sets,
the pool initialized (and logged). -/
def initRunSt (plan : ExecutionPlan) : RunSt :=
  { nodes := plan.changes, completedChanges := [], failedChanges := [],
    spawnIdx := 0, log := [PoolOp.initPool], aborted := false }

/-- The result assembly of `executeExecutionPlan`: the `catch` path (an
aborted loop) reports every id not in `completedChanges` as failed; the
normal path reports `success` iff `failedChanges` is empty. -/
def finishRun (plan : ExecutionPlan) (st : RunSt) : RunOut :=
  if st.aborted then
    { nodes := st.nodes
      result :=
        { success := false
          completedChanges := st.completedChanges
          failedChanges :=
            (plan.changes.filter
              (fun n => !(st.completedChanges.contains n.changeId))).map
              (fun n => n.changeId) }
      log := st.log }
  else
    { nodes := st.nodes
      result :=
        { success := st.failedChanges.isEmpty
          completedChanges := st.completedChanges
          failedChanges := st.failedChanges }
      log := st.log }

/-- `executeExecutionPlan(plan)`.  `initializeSwarm` runs before the
`try`, so its failure propagates to the caller (`none`).  Inside the
`try`, a spawn failure is caught and converted into a failure result; on
the normal path `success` is `failedChanges.length === 0`. -/
def executeExecutionPlan (plan : ExecutionPlan) (env : Env) : Option RunOut :=
  if env.initOk then
    some (finishRun plan (runBatches env plan.parallelBatches (initRunSt plan)))
  else none

/-- `destroySwarm(swarmState)`: the one place the pool-destroy operation is
issued.  It is a standalone export; `executeExecutionPlan` does not call
it. -/
def destroySwarm (_env : Env) : List PoolOp :=
  [PoolOp.destroyPool]

/-! ### waitForTaskCompletion (mcpBridge.ts)

The remote task status returned by `getTaskStatus` on the k-th poll is
abstracted as an oracle `poll : Nat → TaskStatus` (the shipped
`getTaskStatus` is a stand-in that always answers `in_progress`; the
oracle covers every remote behaviour).  Logical time starts at 0 and
advances by `pollIntervalMs` at each `setTimeout` sleep; polling itself is
instantaneous.  The loop is embedded with fuel; `timeoutMs + 1` is
sufficient whenever `pollIntervalMs ≥ 1` since elapsed time then grows by
at least 1 per iteration. -/

/-- Task status reported by `getTaskStatus`. -/
inductive TaskStatus where
  | pending
  | inProgress
  | completed
  | failed
deriving DecidableEq, Repr

/-- The record returned by `waitForTaskCompletion`. -/
structure WaitResult where
  success : Bool
  finalStatus : String
  results : Option Unit
  error : Option String
deriving DecidableEq, Repr

/-- The timeout return value of `waitForTaskCompletion`. -/
def timeoutResult (timeoutMs : Nat) : WaitResult :=
  { success := false
    finalStatus := "timeout"
    results := none
    error := some ("Task did not complete within " ++ Nat.repr timeoutMs ++ "ms") }

/-- The `while (Date.now() - startTime < timeoutMs)` loop. -/
def waitLoop (poll : Nat → TaskStatus) (timeoutMs pollIntervalMs : Nat) :
    Nat → Nat → Nat → WaitResult
  | 0, _, _ => timeoutResult timeoutMs
  | fuel + 1, elapsed, k =>
      if elapsed < timeoutMs then
        match poll k with
        | .completed =>
            { success := true, finalStatus := "completed", results := some (),
              error := none }
        | .failed =>
            { success := false, finalStatus := "failed", results := none,
              error := some "Task reported failure" }
        | _ => waitLoop poll timeoutMs pollIntervalMs fuel (elapsed + pollIntervalMs) (k + 1)
      else timeoutResult timeoutMs

/-- `waitForTaskCompletion(taskId, timeoutMs, pollIntervalMs)`. -/
def waitForTaskCompletion (poll : Nat → TaskStatus) (timeoutMs pollIntervalMs : Nat) :
    WaitResult :=
  waitLoop poll timeoutMs pollIntervalMs (timeoutMs + 1) 0 0

/-! ### Concrete instances used to evaluate the model -/

/-- Environment in which every remote call succeeds. -/
def allOkEnv : Env :=
  { initOk := true, spawnOk := fun _ => true, orchOk := fun _ => true,
    waitOk := fun _ => true }

/-- Environment in which every parallel-spawn call fails. -/
def spawnFailEnv : Env :=
  { initOk := true, spawnOk := fun _ => false, orchOk := fun _ => true,
    waitOk := fun _ => true }

/-- Environment in which only the task orchestration for "a" fails. -/
def orchAFailEnv : Env :=
  { initOk := true, spawnOk := fun _ => true, orchOk := fun s => !(s == "a"),
    waitOk := fun _ => true }

/-- A one-node plan with no dependencies. -/
def soloPlan : ExecutionPlan :=
  { changes := [⟨"a", [], .pending⟩], executionOrder := ["a"],
    parallelBatches := [["a"]] }

/-- A plan with a two-node first batch and a one-node second batch, no
dependencies anywhere. -/
def twoBatchPlan : ExecutionPlan :=
  { changes := [⟨"a", [], .pending⟩, ⟨"b", [], .pending⟩, ⟨"c", [], .pending⟩],
    executionOrder := ["a", "b", "c"], parallelBatches := [["a", "b"], ["c"]] }

/-- A two-node single-batch plan. -/
def pairPlan : ExecutionPlan :=
  { changes := [⟨"a", [], .pending⟩, ⟨"b", [], .pending⟩],
    executionOrder := ["a", "b"], parallelBatches := [["a", "b"]] }

/-- The input list whose single change has a dangling dependency. -/
def danglingInputs : List ChangeInput := [⟨"a", ["z"]⟩]

/-- The plan `buildExecutionPlan` produces for `danglingInputs`: the node
is in the execution order but in no parallel batch. -/
def danglingPlan : ExecutionPlan :=
  { changes := [⟨"a", ["z"], .pending⟩], executionOrder := ["a"],
    parallelBatches := [] }

/-- Input list with one dependency edge: "b" depends on "a". -/
def abInputs : List ChangeInput := [⟨"b", ["a"]⟩, ⟨"a", []⟩]

/-- The plan `buildExecutionPlan` produces for `abInputs`. -/
def abPlan : ExecutionPlan :=
  { changes := [⟨"b", ["a"], .pending⟩, ⟨"a", [], .pending⟩],
    executionOrder := ["a", "b"], parallelBatches := [["a"], ["b"]] }

/-- Input list with two independent changes. -/
def indepInputs : List ChangeInput := [⟨"a", []⟩, ⟨"b", []⟩]

/-- A plan with a dangling dependency, for exercising the validator. -/
def vplan : ExecutionPlan :=
  { changes := [⟨"A", ["Z"], .pending⟩], executionOrder := ["A"],
    parallelBatches := [["A"]] }

/-! ## Lemmas: association-list operations -/

theorem alGetD_nil (k : String) : alGetD [] k = 0 := rfl

theorem alGetD_alSet_self (m : DegMap) (k : String) (v : Int) :
    alGetD (alSet m k v) k = v := by
  induction m with
  | nil => simp [alSet, alGetD]
  | cons p rest ih =>
      by_cases h : p.1 = k
      · simp [alSet, h, alGetD]
      · simp only [alSet, if_neg h]
        rw [alGetD, List.find?_cons_of_neg] at *
        · exact ih
        · simp [h]

theorem alGetD_alSet_ne (m : DegMap) (k k' : String) (v : Int) (h : k' ≠ k) :
    alGetD (alSet m k v) k' = alGetD m k' := by
  induction m with
  | nil => simp [alSet, alGetD, List.find?, Ne.symm h]
  | cons p rest ih =>
      by_cases hp : p.1 = k
      · subst hp
        simp [alSet, alGetD, List.find?, Ne.symm h]
      · simp only [alSet, if_neg hp]
        by_cases hk' : p.1 = k'
        · simp [alGetD, List.find?, hk']
        · rw [alGetD, List.find?_cons_of_neg, alGetD, List.find?_cons_of_neg]
          · exact ih
          · simp [hk']
          · simp [hk']

theorem alHas_iff_mem_keys (m : DegMap) (k : String) :
    alHas m k = true ↔ k ∈ m.map Prod.fst := by
  simp [alHas, List.any_eq_true, List.mem_map]

theorem keys_alSet_of_has (m : DegMap) (k : String) (v : Int)
    (h : alHas m k = true) : (alSet m k v).map Prod.fst = m.map Prod.fst := by
  induction m with
  | nil => simp [alHas] at h
  | cons p rest ih =>
      by_cases hp : p.1 = k
      · simp [alSet, hp]
      · simp only [alHas, List.any_cons] at h
        rcases Bool.or_eq_true_iff.mp h with h | h
        · exact absurd (by simpa using h) hp
        · simp [alSet, if_neg hp, ih h]

theorem keys_alSet_of_not_has (m : DegMap) (k : String) (v : Int)
    (h : alHas m k = false) : (alSet m k v).map Prod.fst = m.map Prod.fst ++ [k] := by
  induction m with
  | nil => simp [alSet]
  | cons p rest ih =>
      simp only [alHas, List.any_cons, Bool.or_eq_false_iff] at h
      have hp : ¬ p.1 = k := by simpa using h.1
      simp [alSet, if_neg hp, ih (by simp [alHas, h.2])]

theorem alHas_alSet (m : DegMap) (k k' : String) (v : Int) :
    alHas (alSet m k v) k' = true ↔ k' = k ∨ alHas m k' = true := by
  by_cases h : alHas m k = true
  · rw [alHas_iff_mem_keys, keys_alSet_of_has m k v h, ← alHas_iff_mem_keys]
    constructor
    · exact Or.inr
    · rintro (he | hm)
      · subst he; exact h
      · exact hm
  · rw [alHas_iff_mem_keys, keys_alSet_of_not_has m k v (by simpa using h)]
    simp only [List.mem_append, List.mem_singleton, ← alHas_iff_mem_keys]
    tauto

theorem alGetD_of_mem_of_nodup (m : DegMap) (k : String) (v : Int)
    (hnd : (m.map Prod.fst).Nodup) (hmem : (k, v) ∈ m) : alGetD m k = v := by
  induction m with
  | nil => simp at hmem
  | cons p rest ih =>
      rcases List.mem_cons.mp hmem with h | h
      · subst h
        simp [alGetD, List.find?]
      · have hk : k ∈ rest.map Prod.fst := List.mem_map.mpr ⟨(k, v), h, rfl⟩
        have hp : p.1 ≠ k := by
          intro he
          exact (List.nodup_cons.mp hnd).1 (he ▸ hk)
        rw [alGetD, List.find?_cons_of_neg _ (by simp [hp])]
        exact ih (List.nodup_cons.mp hnd).2 h

theorem degSum_alSet_of_has (m : DegMap) (k : String) (v : Int)
    (h : alHas m k = true) :
    degSum (alSet m k v) + (alGetD m k).toNat = degSum m + v.toNat := by
  induction m with
  | nil => simp [alHas] at h
  | cons p rest ih =>
      by_cases hp : p.1 = k
      · subst hp
        simp [alSet, degSum, alGetD, List.find?]
        omega
      · simp only [alHas, List.any_cons, Bool.or_eq_false_iff] at h
        rcases Bool.or_eq_true_iff.mp h with h | h
        · exact absurd (by simpa using h) hp
        · have := ih h
          simp only [alSet, if_neg hp, degSum, List.map_cons, List.sum_cons]
          rw [alGetD, List.find?_cons_of_neg _ (by simp [hp])]
          simp only [degSum] at this
          rw [alGetD] at this
          omega

theorem degSum_alSet_of_not_has (m : DegMap) (k : String) (v : Int)
    (h : alHas m k = false) : degSum (alSet m k v) = degSum m + v.toNat := by
  induction m with
  | nil => simp [alSet, degSum]
  | cons p rest ih =>
      simp only [alHas, List.any_cons, Bool.or_eq_false_iff] at h
      have hp : ¬ p.1 = k := by simpa using h.1
      simp only [alSet, if_neg hp, degSum, List.map_cons, List.sum_cons]
      have := ih (by simp [alHas, h.2])
      simp only [degSum] at this
      omega

theorem alGetD_of_not_has (m : DegMap) (k : String) (h : alHas m k = false) :
    alGetD m k = 0 := by
  induction m with
  | nil => rfl
  | cons p rest ih =>
      simp only [alHas, List.any_cons, Bool.or_eq_false_iff] at h
      have hp : ¬ p.1 = k := by simpa using h.1
      rw [alGetD, List.find?_cons_of_neg _ (by simp [hp])]
      exact ih (by simp [alHas, h.2])

/-! ## Lemmas: the sort's termination measure -/

theorem sortStep_nil (c : String) (st : List String × DegMap) :
    sortStep [] c st = st := rfl

theorem sortStep_cons (n : Node) (rest : List Node) (c : String)
    (st : List String × DegMap) :
    sortStep (n :: rest) c st = sortStep rest c (sortStepF c st n) := rfl

theorem mu_sortStepF (c : String) (st : List String × DegMap) (n : Node) :
    mu (sortStepF c st n).1 (sortStepF c st n).2 ≤ mu st.1 st.2 := by
  by_cases hc : n.dependsOn.contains c = true
  · by_cases hh : alHas st.2 n.changeId = true
    · have hs := degSum_alSet_of_has st.2 n.changeId (alGetD st.2 n.changeId - 1) hh
      by_cases hz : alGetD st.2 n.changeId - 1 = 0
      · simp only [sortStepF, if_pos hc, if_pos hz, mu, List.length_append,
          List.length_cons, List.length_nil]
        omega
      · simp only [sortStepF, if_pos hc, if_neg hz, mu]
        omega
    · have h0 := alGetD_of_not_has st.2 n.changeId (by simpa using hh)
      have hs := degSum_alSet_of_not_has st.2 n.changeId
        (alGetD st.2 n.changeId - 1) (by simpa using hh)
      have hz : ¬ (alGetD st.2 n.changeId - 1 = 0) := by omega
      simp only [sortStepF, if_pos hc, if_neg hz, mu]
      omega
  · simp only [sortStepF, if_neg hc]
    exact le_rfl

theorem mu_sortStep (nodes : List Node) (c : String) :
    ∀ (st : List String × DegMap),
      mu (sortStep nodes c st).1 (sortStep nodes c st).2 ≤ mu st.1 st.2 := by
  induction nodes with
  | nil => intro st; simp [sortStep_nil]
  | cons n rest ih =>
      intro st
      rw [sortStep_cons]
      exact le_trans (ih _) (mu_sortStepF c st n)

/-! ## Lemmas: one decrement pass (`sortStep`) -/

theorem decCount_cons (n : Node) (rest : List Node) (c k : String) :
    decCount (n :: rest) c k =
      (if n.changeId = k ∧ n.dependsOn.contains c = true then 1 else 0) +
        decCount rest c k := by
  simp only [decCount, List.filter_cons]
  split
  · next h =>
      simp only [List.length_cons]
      rw [if_pos (by simpa [Bool.and_eq_true] using h)]
      omega
  · next h =>
      rw [if_neg (by simpa [Bool.and_eq_true] using h)]
      omega

theorem keys_alSet_nodup (m : DegMap) (k : String) (v : Int)
    (h : (m.map Prod.fst).Nodup) : ((alSet m k v).map Prod.fst).Nodup := by
  by_cases hh : alHas m k = true
  · rw [keys_alSet_of_has m k v hh]; exact h
  · rw [keys_alSet_of_not_has m k v (by simpa using hh)]
    refine List.Nodup.append h (List.nodup_singleton k) ?_
    intro x hx hk
    rw [List.mem_singleton] at hk
    subst hk
    exact absurd ((alHas_iff_mem_keys m x).mpr hx) (by simpa using hh)

theorem alHas_congr_keys (m m' : DegMap) (h : m.map Prod.fst = m'.map Prod.fst)
    (k : String) : alHas m k = alHas m' k := by
  cases hb : alHas m' k with
  | true => exact (alHas_iff_mem_keys m k).mpr (h ▸ (alHas_iff_mem_keys m' k).mp hb)
  | false =>
      cases hm : alHas m k with
      | false => rfl
      | true =>
          have hk : k ∈ m'.map Prod.fst := h ▸ (alHas_iff_mem_keys m k).mp hm
          exact absurd ((alHas_iff_mem_keys m' k).mpr hk) (by simp [hb])

theorem sortStep_deg (c : String) :
    ∀ (nodes : List Node) (q : List String) (deg : DegMap) (k : String),
      alGetD (sortStep nodes c (q, deg)).2 k = alGetD deg k - decCount nodes c k := by
  intro nodes
  induction nodes with
  | nil => intro q deg k; simp [sortStep_nil, decCount]
  | cons n rest ih =>
      intro q deg k
      rw [sortStep_cons, decCount_cons]
      by_cases hc : n.dependsOn.contains c = true
      · simp only [sortStepF, if_pos hc]
        rw [ih]
        by_cases hk : n.changeId = k
        · subst hk
          rw [alGetD_alSet_self, if_pos ⟨rfl, hc⟩]
          omega
        · rw [alGetD_alSet_ne deg n.changeId k _ (fun he => hk he.symm),
            if_neg (fun hand => hk hand.1)]
          omega
      · simp only [sortStepF, if_neg hc]
        rw [ih, if_neg (fun hand => hc hand.2)]
        omega

theorem sortStep_queue (c : String) :
    ∀ (nodes : List Node) (q : List String) (deg : DegMap),
      (sortStep nodes c (q, deg)).1 = q ++ pushedList c nodes deg := by
  intro nodes
  induction nodes with
  | nil => intro q deg; simp [sortStep_nil, pushedList]
  | cons n rest ih =>
      intro q deg
      rw [sortStep_cons]
      by_cases hc : n.dependsOn.contains c = true
      · simp only [sortStepF, if_pos hc, pushedList]
        by_cases hz : alGetD deg n.changeId - 1 = 0
        · simp only [if_pos hz]
          rw [ih]
          simp
        · simp only [if_neg hz]
          rw [ih]
          simp
      · simp only [sortStepF, if_neg hc, pushedList]
        exact ih q deg

theorem pushedList_ge_one (c : String) :
    ∀ (nodes : List Node) (deg : DegMap) (k : String),
      k ∈ pushedList c nodes deg → 1 ≤ alGetD deg k := by
  intro nodes
  induction nodes with
  | nil => intro deg k h; simp [pushedList] at h
  | cons n rest ih =>
      intro deg k h
      by_cases hc : n.dependsOn.contains c = true
      · simp only [pushedList, if_pos hc, List.mem_append] at h
        rcases h with h | h
        · by_cases hz : alGetD deg n.changeId - 1 = 0
          · rw [if_pos hz] at h
            rw [List.mem_singleton] at h
            subst h
            omega
          · rw [if_neg hz] at h
            simp at h
        · have := ih _ k h
          by_cases hk : n.changeId = k
          · subst hk
            rw [alGetD_alSet_self] at this
            omega
          · rwa [alGetD_alSet_ne deg n.changeId k _ (fun he => hk he.symm)] at this
      · simp only [pushedList, if_neg hc] at h
        exact ih deg k h

theorem pushedList_le_decCount (c : String) :
    ∀ (nodes : List Node) (deg : DegMap) (k : String),
      k ∈ pushedList c nodes deg → alGetD deg k ≤ decCount nodes c k := by
  intro nodes
  induction nodes with
  | nil => intro deg k h; simp [pushedList] at h
  | cons n rest ih =>
      intro deg k h
      rw [decCount_cons]
      by_cases hc : n.dependsOn.contains c = true
      · simp only [pushedList, if_pos hc, List.mem_append] at h
        rcases h with h | h
        · by_cases hz : alGetD deg n.changeId - 1 = 0
          · rw [if_pos hz] at h
            rw [List.mem_singleton] at h
            subst h
            rw [if_pos ⟨rfl, hc⟩]
            omega
          · rw [if_neg hz] at h
            simp at h
        · have := ih _ k h
          by_cases hk : n.changeId = k
          · subst hk
            rw [alGetD_alSet_self] at this
            rw [if_pos ⟨rfl, hc⟩]
            omega
          · rw [alGetD_alSet_ne deg n.changeId k _ (fun he => hk he.symm)] at this
            rw [if_neg (fun hand => hk hand.1)]
            omega
      · simp only [pushedList, if_neg hc] at h
        have := ih deg k h
        rw [if_neg (fun hand => hc hand.2)]
        omega

theorem pushedList_mem_nodes (c : String) :
    ∀ (nodes : List Node) (deg : DegMap) (k : String),
      k ∈ pushedList c nodes deg → ∃ n ∈ nodes, n.changeId = k := by
  intro nodes
  induction nodes with
  | nil => intro deg k h; simp [pushedList] at h
  | cons n rest ih =>
      intro deg k h
      by_cases hc : n.dependsOn.contains c = true
      · simp only [pushedList, if_pos hc, List.mem_append] at h
        rcases h with h | h
        · by_cases hz : alGetD deg n.changeId - 1 = 0
          · rw [if_pos hz] at h
            rw [List.mem_singleton] at h
            exact ⟨n, List.mem_cons_self n rest, h.symm⟩
          · rw [if_neg hz] at h
            simp at h
        · obtain ⟨m, hm, he⟩ := ih _ k h
          exact ⟨m, List.mem_cons_of_mem n hm, he⟩
      · simp only [pushedList, if_neg hc] at h
        obtain ⟨m, hm, he⟩ := ih deg k h
        exact ⟨m, List.mem_cons_of_mem n hm, he⟩

theorem pushedList_nodup (c : String) :
    ∀ (nodes : List Node) (deg : DegMap), (pushedList c nodes deg).Nodup := by
  intro nodes
  induction nodes with
  | nil => intro deg; simp [pushedList]
  | cons n rest ih =>
      intro deg
      by_cases hc : n.dependsOn.contains c = true
      · simp only [pushedList, if_pos hc]
        by_cases hz : alGetD deg n.changeId - 1 = 0
        · rw [if_pos hz]
          rw [List.singleton_append, List.nodup_cons]
          refine ⟨fun hmem => ?_, ih _⟩
          have := pushedList_ge_one c rest _ n.changeId hmem
          rw [alGetD_alSet_self] at this
          omega
        · rw [if_neg hz, List.nil_append]
          exact ih _
      · simp only [pushedList, if_neg hc]
        exact ih deg

theorem sortStep_keys (c : String) :
    ∀ (nodes : List Node) (q : List String) (deg : DegMap),
      (∀ n ∈ nodes, alHas deg n.changeId = true) →
      (sortStep nodes c (q, deg)).2.map Prod.fst = deg.map Prod.fst := by
  intro nodes
  induction nodes with
  | nil => intro q deg _; simp [sortStep_nil]
  | cons n rest ih =>
      intro q deg hkeys
      rw [sortStep_cons]
      by_cases hc : n.dependsOn.contains c = true
      · simp only [sortStepF, if_pos hc]
        have hkeq := keys_alSet_of_has deg n.changeId
          (alGetD deg n.changeId - 1) (hkeys n (List.mem_cons_self n rest))
        rw [ih _ _ (fun m hm => ?_), hkeq]
        rw [alHas_congr_keys _ deg hkeq]
        exact hkeys m (List.mem_cons_of_mem n hm)
      · simp only [sortStepF, if_neg hc]
        exact ih q deg (fun m hm => hkeys m (List.mem_cons_of_mem n hm))

/-! ## Lemmas: the in-degree computation -/

theorem degEnsure_getD (deg : DegMap) (k k' : String) :
    alGetD (degEnsure deg k) k' = alGetD deg k' := by
  by_cases h : alHas deg k = true
  · simp [degEnsure, h]
  · simp only [degEnsure, if_neg h]
    by_cases hk : k' = k
    · subst hk
      rw [alGetD_alSet_self, alGetD_of_not_has deg k' (by simpa using h)]
    · exact alGetD_alSet_ne deg k k' 0 hk

theorem degEnsure_has (deg : DegMap) (k k' : String) :
    alHas (degEnsure deg k) k' = true ↔ k' = k ∨ alHas deg k' = true := by
  by_cases h : alHas deg k = true
  · simp only [degEnsure, if_pos h]
    constructor
    · exact Or.inr
    · rintro (he | hm)
      · subst he; exact h
      · exact hm
  · simp only [degEnsure, if_neg h]
    exact alHas_alSet deg k k' 0

theorem degEnsure_has_self (deg : DegMap) (k : String) :
    alHas (degEnsure deg k) k = true :=
  (degEnsure_has deg k k).mpr (Or.inl rfl)

theorem degEnsure_keysND (deg : DegMap) (k : String)
    (h : (deg.map Prod.fst).Nodup) : ((degEnsure deg k).map Prod.fst).Nodup := by
  by_cases hh : alHas deg k = true
  · simpa [degEnsure, hh] using h
  · simp only [degEnsure, if_neg hh]
    exact keys_alSet_nodup deg k 0 h

theorem innerFold_getD (nodes : List Node) (cid : String) :
    ∀ (deps : List String) (deg : DegMap), alHas deg cid = true → ∀ k,
      alGetD (deps.foldl (inDegreeDep nodes cid) deg) k =
        alGetD deg k +
          (if k = cid then ((deps.filter (fun d => hasNode nodes d)).length : Int)
           else 0) := by
  intro deps
  induction deps with
  | nil => intro deg _ k; simp
  | cons dep rest ih =>
      intro deg hc k
      rw [List.foldl_cons]
      by_cases hp : hasNode nodes dep = true
      · have hstep : ∀ k', alGetD (inDegreeDep nodes cid deg dep) k' =
            alGetD deg k' + (if k' = cid then 1 else 0) := by
          intro k'
          simp only [inDegreeDep, if_pos hp]
          by_cases hk' : k' = cid
          · subst hk'
            rw [alGetD_alSet_self, degEnsure_getD, if_pos rfl]
          · rw [alGetD_alSet_ne _ cid k' _ hk', degEnsure_getD, if_neg hk']
            omega
        have hhas : alHas (inDegreeDep nodes cid deg dep) cid = true := by
          simp only [inDegreeDep, if_pos hp]
          exact (alHas_alSet _ cid cid _).mpr (Or.inl rfl)
        rw [ih _ hhas k, hstep k]
        simp only [List.filter_cons, if_pos hp]
        by_cases hk : k = cid
        · simp [hk]
          omega
        · simp [hk]
      · simp only [inDegreeDep, if_neg hp]
        rw [ih _ hc k]
        simp [List.filter_cons, hp]

theorem innerFold_has (nodes : List Node) (cid : String) :
    ∀ (deps : List String) (deg : DegMap), alHas deg cid = true → ∀ k,
      alHas (deps.foldl (inDegreeDep nodes cid) deg) k = true ↔
        alHas deg k = true ∨ (k ∈ deps ∧ hasNode nodes k = true) := by
  intro deps
  induction deps with
  | nil => intro deg _ k; simp
  | cons dep rest ih =>
      intro deg hc k
      rw [List.foldl_cons]
      by_cases hp : hasNode nodes dep = true
      · have hstep : ∀ k', alHas (inDegreeDep nodes cid deg dep) k' = true ↔
            k' = dep ∨ alHas deg k' = true := by
          intro k'
          simp only [inDegreeDep, if_pos hp]
          rw [alHas_alSet, degEnsure_has]
          constructor
          · rintro (he | hd | hm)
            · subst he; exact Or.inr hc
            · exact Or.inl hd
            · exact Or.inr hm
          · rintro (hd | hm)
            · exact Or.inr (Or.inl hd)
            · exact Or.inr (Or.inr hm)
        have hhas : alHas (inDegreeDep nodes cid deg dep) cid = true :=
          (hstep cid).mpr (Or.inr hc)
        rw [ih _ hhas k]
        rw [hstep k]
        constructor
        · rintro ((he | hm) | hmem)
          · rw [he]
            exact Or.inr ⟨List.mem_cons_self dep rest, hp⟩
          · exact Or.inl hm
          · exact Or.inr ⟨List.mem_cons_of_mem dep hmem.1, hmem.2⟩
        · rintro (hm | ⟨hmem, hk⟩)
          · exact Or.inl (Or.inr hm)
          · rcases List.mem_cons.mp hmem with he | hmem'
            · exact Or.inl (Or.inl he)
            · exact Or.inr ⟨hmem', hk⟩
      · simp only [inDegreeDep, if_neg hp]
        rw [ih _ hc k]
        constructor
        · rintro (hm | ⟨hmem, hk⟩)
          · exact Or.inl hm
          · exact Or.inr ⟨List.mem_cons_of_mem dep hmem, hk⟩
        · rintro (hm | ⟨hmem, hk⟩)
          · exact Or.inl hm
          · rcases List.mem_cons.mp hmem with he | hmem'
            · subst he; exact absurd hk (by simpa using hp)
            · exact Or.inr ⟨hmem', hk⟩

theorem innerFold_keysND (nodes : List Node) (cid : String) :
    ∀ (deps : List String) (deg : DegMap), (deg.map Prod.fst).Nodup →
      ((deps.foldl (inDegreeDep nodes cid) deg).map Prod.fst).Nodup := by
  intro deps
  induction deps with
  | nil => intro deg h; simpa using h
  | cons dep rest ih =>
      intro deg h
      rw [List.foldl_cons]
      refine ih _ ?_
      by_cases hp : hasNode nodes dep = true
      · simp only [inDegreeDep, if_pos hp]
        exact keys_alSet_nodup _ cid _ (degEnsure_keysND deg dep h)
      · simpa only [inDegreeDep, if_neg hp] using h

theorem mCount_eq_mPart (nodes : List Node) (k : String) :
    mCount nodes k =
      ((nodes.filter (fun n => n.changeId = k)).map
        (fun n => (n.dependsOn.filter (fun d => hasNode nodes d)).length)).sum := rfl

theorem outerFold_getD (nodes : List Node) :
    ∀ (ns : List Node) (deg : DegMap) (k : String),
      alGetD (ns.foldl (inDegreeNode nodes) deg) k =
        alGetD deg k +
          ((ns.filter (fun n => n.changeId = k)).map
            (fun n => (n.dependsOn.filter (fun d => hasNode nodes d)).length)).sum := by
  intro ns
  induction ns with
  | nil => intro deg k; simp
  | cons n rest ih =>
      intro deg k
      rw [List.foldl_cons, ih]
      have hstep : alGetD (inDegreeNode nodes deg n) k =
          alGetD deg k +
            (if k = n.changeId
             then ((n.dependsOn.filter (fun d => hasNode nodes d)).length : Int)
             else 0) := by
        rw [inDegreeNode, innerFold_getD nodes n.changeId n.dependsOn _
          (degEnsure_has_self deg n.changeId) k, degEnsure_getD]
      rw [hstep]
      simp only [List.filter_cons]
      by_cases hk : n.changeId = k
      · subst hk
        simp
        omega
      · simp [hk, Ne.symm hk]

theorem outerFold_has (nodes : List Node) :
    ∀ (ns : List Node) (deg : DegMap) (k : String),
      alHas (ns.foldl (inDegreeNode nodes) deg) k = true ↔
        alHas deg k = true ∨ (∃ n ∈ ns, n.changeId = k) ∨
          (∃ n ∈ ns, k ∈ n.dependsOn ∧ hasNode nodes k = true) := by
  intro ns
  induction ns with
  | nil => intro deg k; simp
  | cons n rest ih =>
      intro deg k
      rw [List.foldl_cons, ih]
      have hstep : alHas (inDegreeNode nodes deg n) k = true ↔
          alHas deg k = true ∨ k = n.changeId ∨
            (k ∈ n.dependsOn ∧ hasNode nodes k = true) := by
        rw [inDegreeNode, innerFold_has nodes n.changeId n.dependsOn _
          (degEnsure_has_self deg n.changeId) k, degEnsure_has]
        tauto
      rw [hstep]
      constructor
      · rintro ((hm | he | hd) | ⟨m, hm, he⟩ | ⟨m, hm, hd⟩)
        · exact Or.inl hm
        · exact Or.inr (Or.inl ⟨n, List.mem_cons_self n rest, he.symm⟩)
        · exact Or.inr (Or.inr ⟨n, List.mem_cons_self n rest, hd⟩)
        · exact Or.inr (Or.inl ⟨m, List.mem_cons_of_mem n hm, he⟩)
        · exact Or.inr (Or.inr ⟨m, List.mem_cons_of_mem n hm, hd⟩)
      · rintro (hm | ⟨m, hm, he⟩ | ⟨m, hm, hd⟩)
        · exact Or.inl (Or.inl hm)
        · rcases List.mem_cons.mp hm with h | h
          · subst h; exact Or.inl (Or.inr (Or.inl he.symm))
          · exact Or.inr (Or.inl ⟨m, h, he⟩)
        · rcases List.mem_cons.mp hm with h | h
          · subst h; exact Or.inl (Or.inr (Or.inr hd))
          · exact Or.inr (Or.inr ⟨m, h, hd⟩)

theorem outerFold_keysND (nodes : List Node) :
    ∀ (ns : List Node) (deg : DegMap), (deg.map Prod.fst).Nodup →
      ((ns.foldl (inDegreeNode nodes) deg).map Prod.fst).Nodup := by
  intro ns
  induction ns with
  | nil => intro deg h; simpa using h
  | cons n rest ih =>
      intro deg h
      rw [List.foldl_cons]
      exact ih _ (innerFold_keysND nodes n.changeId n.dependsOn _
        (degEnsure_keysND deg n.changeId h))

theorem buildInDegree_getD (nodes : List Node) (k : String) :
    alGetD (buildInDegree nodes) k = mCount nodes k := by
  rw [buildInDegree, outerFold_getD nodes nodes [] k, mCount_eq_mPart]
  simp [alGetD]

theorem buildInDegree_has (nodes : List Node) (k : String) :
    alHas (buildInDegree nodes) k = true ↔ hasNode nodes k = true := by
  rw [buildInDegree, outerFold_has nodes nodes [] k]
  simp only [alHas, List.any_nil, Bool.false_eq_true, false_or]
  constructor
  · rintro (⟨n, hn, he⟩ | ⟨n, hn, hd⟩)
    · exact List.any_eq_true.mpr ⟨n, hn, by simpa using he⟩
    · exact hd.2
  · intro h
    obtain ⟨n, hn, he⟩ := List.any_eq_true.mp h
    exact Or.inl ⟨n, hn, by simpa using he⟩

theorem buildInDegree_keysND (nodes : List Node) :
    ((buildInDegree nodes).map Prod.fst).Nodup := by
  rw [buildInDegree]
  exact outerFold_keysND nodes nodes [] (by simp)

/-! ## Lemmas: decrement bookkeeping (`sCount`, `mCount`) -/

theorem sCount_nil (nodes : List Node) (k : String) : sCount nodes [] k = 0 := by
  simp [sCount]

theorem sum_filter_append_single (sorted : List String) (c : String) :
    ∀ ns : List Node,
      (ns.map (fun n =>
        ((sorted ++ [c]).filter (fun e => n.dependsOn.contains e)).length)).sum =
      (ns.map (fun n =>
        (sorted.filter (fun e => n.dependsOn.contains e)).length)).sum +
        (ns.filter (fun n => n.dependsOn.contains c)).length := by
  intro ns
  induction ns with
  | nil => simp
  | cons n rest ih =>
      rw [List.map_cons, List.map_cons, List.sum_cons, List.sum_cons, ih,
        List.filter_append, List.length_append]
      by_cases hc : n.dependsOn.contains c = true
      · have hc' : c ∈ n.dependsOn := by simpa using hc
        simp [List.filter_cons, hc']
        omega
      · have hc' : c ∉ n.dependsOn := by simpa using hc
        simp [List.filter_cons, hc']
        omega

theorem decCount_eq_filter_filter (c k : String) :
    ∀ nodes : List Node,
      decCount nodes c k =
        ((nodes.filter (fun n => n.changeId = k)).filter
          (fun n => n.dependsOn.contains c)).length := by
  intro nodes
  induction nodes with
  | nil => rfl
  | cons n rest ih =>
      rw [decCount_cons, ih]
      by_cases h1 : n.changeId = k
      · by_cases h2 : n.dependsOn.contains c = true
        · have hc' : c ∈ n.dependsOn := by simpa using h2
          rw [if_pos ⟨h1, h2⟩]
          simp [List.filter_cons, h1, hc']
          omega
        · have hc' : c ∉ n.dependsOn := by simpa using h2
          rw [if_neg (fun hand => h2 hand.2)]
          simp [List.filter_cons, h1, hc']
      · rw [if_neg (fun hand => h1 hand.1)]
        simp [List.filter_cons, h1]

theorem sCount_append_single (nodes : List Node) (sorted : List String) (c k : String) :
    sCount nodes (sorted ++ [c]) k = sCount nodes sorted k + decCount nodes c k := by
  rw [sCount, sCount, sum_filter_append_single, decCount_eq_filter_filter]

theorem sCount_le_mCount (nodes : List Node) (sorted : List String) (k : String)
    (hnd : sorted.Nodup) (hmem : ∀ e ∈ sorted, hasNode nodes e = true) :
    sCount nodes sorted k ≤ mCount nodes k := by
  rw [sCount, mCount]
  refine List.sum_le_sum ?_
  intro n _
  have hAnd : (sorted.filter (fun e => n.dependsOn.contains e)).Nodup :=
    hnd.filter _
  have hsub : (sorted.filter (fun e => n.dependsOn.contains e)) ⊆
      n.dependsOn.filter (fun d => hasNode nodes d) := by
    intro e he
    rw [List.mem_filter] at he
    rw [List.mem_filter]
    exact ⟨by simpa using he.2, hmem e he.1⟩
  exact (hAnd.subperm hsub).length_le

theorem map_sum_eq_of_pointwise_le (f g : Node → Nat) :
    ∀ ns : List Node, (∀ n ∈ ns, f n ≤ g n) →
      (ns.map g).sum ≤ (ns.map f).sum → ∀ n ∈ ns, f n = g n := by
  intro ns
  induction ns with
  | nil => intro _ _ n hn; simp at hn
  | cons n rest ih =>
      intro hle hsum m hm
      simp only [List.map_cons, List.sum_cons] at hsum
      have h1 : f n ≤ g n := hle n (List.mem_cons_self n rest)
      have h2 : (rest.map f).sum ≤ (rest.map g).sum :=
        List.sum_le_sum (fun i hi => hle i (List.mem_cons_of_mem n hi))
      rcases List.mem_cons.mp hm with he | hm'
      · rw [he]
        omega
      · exact ih (fun i hi => hle i (List.mem_cons_of_mem n hi)) (by omega) m hm'

theorem deps_subset_of_filter_len (nodes : List Node) (n : Node) (sorted : List String)
    (hnd : sorted.Nodup) (hmem : ∀ e ∈ sorted, hasNode nodes e = true)
    (heq : (sorted.filter (fun e => n.dependsOn.contains e)).length =
           (n.dependsOn.filter (fun d => hasNode nodes d)).length) :
    ∀ p ∈ n.dependsOn, hasNode nodes p = true → p ∈ sorted := by
  intro p hp hpres
  by_contra hnp
  have hpB : p ∈ (n.dependsOn.filter (fun d => hasNode nodes d)).dedup :=
    List.mem_dedup.mpr (List.mem_filter.mpr ⟨hp, hpres⟩)
  have hAnd : (sorted.filter (fun e => n.dependsOn.contains e)).Nodup := hnd.filter _
  have hsub : sorted.filter (fun e => n.dependsOn.contains e) ⊆
      ((n.dependsOn.filter (fun d => hasNode nodes d)).dedup).erase p := by
    intro e he
    rw [List.mem_filter] at he
    have hmemB : e ∈ (n.dependsOn.filter (fun d => hasNode nodes d)).dedup :=
      List.mem_dedup.mpr (List.mem_filter.mpr ⟨by simpa using he.2, hmem e he.1⟩)
    have hne : e ≠ p := fun hep => hnp (hep ▸ he.1)
    exact (List.mem_erase_of_ne hne).mpr hmemB
  have hlen1 : (sorted.filter (fun e => n.dependsOn.contains e)).length ≤
      (((n.dependsOn.filter (fun d => hasNode nodes d)).dedup).erase p).length :=
    (hAnd.subperm hsub).length_le
  have hlen2 : (((n.dependsOn.filter (fun d => hasNode nodes d)).dedup).erase p).length =
      ((n.dependsOn.filter (fun d => hasNode nodes d)).dedup).length - 1 :=
    List.length_erase_of_mem hpB
  have hlen3 : ((n.dependsOn.filter (fun d => hasNode nodes d)).dedup).length ≤
      (n.dependsOn.filter (fun d => hasNode nodes d)).length :=
    (List.dedup_sublist _).length_le
  have hpos : 0 < ((n.dependsOn.filter (fun d => hasNode nodes d)).dedup).length :=
    List.length_pos_of_mem hpB
  omega

/-! ## The sort loop invariant -/

theorem hasNode_self (nodes : List Node) (n : Node) (hn : n ∈ nodes) :
    hasNode nodes n.changeId = true :=
  List.any_eq_true.mpr ⟨n, hn, by simp⟩

theorem hasNode_of_ex (nodes : List Node) (k : String)
    (h : ∃ n ∈ nodes, n.changeId = k) : hasNode nodes k = true := by
  obtain ⟨n, hn, he⟩ := h
  exact List.any_eq_true.mpr ⟨n, hn, by simpa using he⟩

theorem indexOf_append_right_self (l : List String) (c : String) (h : c ∉ l) :
    List.indexOf c (l ++ [c]) = l.length := by
  induction l with
  | nil => simp
  | cons a t ih =>
      have hne : a ≠ c := fun he => h (he ▸ List.mem_cons_self a t)
      rw [List.cons_append, List.indexOf_cons_ne _ hne,
        ih (fun hm => h (List.mem_cons_of_mem a hm)), List.length_cons]

/-- The invariant of the sort's `while` loop, relating the queue, the
in-degree map and the emitted prefix. -/
structure SortInv (nodes : List Node) (q : List String) (deg : DegMap)
    (sorted : List String) : Prop where
  keysHas : ∀ k, alHas deg k = true ↔ hasNode nodes k = true
  keysND : (deg.map Prod.fst).Nodup
  degVal : ∀ k, alGetD deg k = (mCount nodes k : Int) - (sCount nodes sorted k : Int)
  nd : (sorted ++ q).Nodup
  memAll : ∀ x ∈ sorted ++ q, hasNode nodes x = true
  nonpos : ∀ x ∈ sorted ++ q, alGetD deg x ≤ 0
  qReady : ∀ x ∈ q, ∀ n ∈ nodes, n.changeId = x → ∀ p ∈ n.dependsOn,
    hasNode nodes p = true → p ∈ sorted
  topo : ∀ n ∈ nodes, n.changeId ∈ sorted → ∀ p ∈ n.dependsOn,
    hasNode nodes p = true →
      p ∈ sorted ∧ List.indexOf p sorted < List.indexOf n.changeId sorted

theorem sortInv_step (nodes : List Node) (c : String) (q : List String)
    (deg : DegMap) (sorted : List String)
    (inv : SortInv nodes (c :: q) deg sorted) :
    SortInv nodes (sortStep nodes c (q, deg)).1 (sortStep nodes c (q, deg)).2
      (sorted ++ [c]) := by
  have hkeys : ∀ n ∈ nodes, alHas deg n.changeId = true := fun n hn =>
    (inv.keysHas n.changeId).mpr (hasNode_self nodes n hn)
  have hq1 : (sortStep nodes c (q, deg)).1 = q ++ pushedList c nodes deg :=
    sortStep_queue c nodes q deg
  have hdeg : ∀ k, alGetD (sortStep nodes c (q, deg)).2 k =
      alGetD deg k - decCount nodes c k := sortStep_deg c nodes q deg
  have hkeysEq : (sortStep nodes c (q, deg)).2.map Prod.fst = deg.map Prod.fst :=
    sortStep_keys c nodes q deg hkeys
  -- pieces of the old nodup invariant
  have hndOld : ((sorted ++ [c]) ++ q).Nodup := by
    have := inv.nd
    rwa [List.append_cons] at this
  have hcNotSorted : c ∉ sorted := by
    have h1 := inv.nd
    rw [List.nodup_append] at h1
    exact fun hm => (h1.2.2 hm (List.mem_cons_self c q)).elim
  have hndSorted' : (sorted ++ [c]).Nodup := (List.nodup_append.mp hndOld).1
  have hmemSorted' : ∀ x ∈ sorted ++ [c], hasNode nodes x = true := by
    intro x hx
    rcases List.mem_append.mp hx with hx | hx
    · exact inv.memAll x (List.mem_append.mpr (Or.inl hx))
    · rw [List.mem_singleton] at hx
      subst hx
      exact inv.memAll x (List.mem_append.mpr (Or.inr (List.mem_cons_self x q)))
  have hpushNotOld : ∀ x ∈ pushedList c nodes deg, x ∉ (sorted ++ [c]) ++ q := by
    intro x hx hmem
    have h1 := pushedList_ge_one c nodes deg x hx
    have h2 := inv.nonpos x (by rw [List.append_cons]; exact hmem)
    omega
  -- the new in-degree value, expressed over the extended prefix
  have hdegVal' : ∀ k, alGetD (sortStep nodes c (q, deg)).2 k =
      (mCount nodes k : Int) - (sCount nodes (sorted ++ [c]) k : Int) := by
    intro k
    rw [hdeg k, inv.degVal k, sCount_append_single]
    push_cast
    ring
  -- the new nodup invariant
  have hndNew : ((sorted ++ [c]) ++ (q ++ pushedList c nodes deg)).Nodup := by
    rw [← List.append_assoc]
    rw [List.nodup_append]
    refine ⟨hndOld, pushedList_nodup c nodes deg, ?_⟩
    intro x hx hp
    exact hpushNotOld x hp hx
  have hmemNew : ∀ x ∈ (sorted ++ [c]) ++ (q ++ pushedList c nodes deg),
      hasNode nodes x = true := by
    intro x hx
    rcases List.mem_append.mp hx with hx | hx
    · exact hmemSorted' x hx
    · rcases List.mem_append.mp hx with hx | hx
      · exact inv.memAll x (List.mem_append.mpr (Or.inr (List.mem_cons_of_mem c hx)))
      · exact hasNode_of_ex nodes x (pushedList_mem_nodes c nodes deg x hx)
  have hnonposNew : ∀ x ∈ (sorted ++ [c]) ++ (q ++ pushedList c nodes deg),
      alGetD (sortStep nodes c (q, deg)).2 x ≤ 0 := by
    intro x hx
    rw [hdeg x]
    rcases List.mem_append.mp hx with hx | hx
    · have h1 := inv.nonpos x (by rw [List.append_cons]; exact List.mem_append.mpr (Or.inl hx))
      have h2 : (0 : Int) ≤ decCount nodes c x := Int.ofNat_nonneg _
      omega
    · rcases List.mem_append.mp hx with hx | hx
      · have h1 := inv.nonpos x
          (List.mem_append.mpr (Or.inr (List.mem_cons_of_mem c hx)))
        have h2 : (0 : Int) ≤ decCount nodes c x := Int.ofNat_nonneg _
        omega
      · have h1 := pushedList_le_decCount c nodes deg x hx
        omega
  refine ⟨?_, ?_, ?_, ?_, ?_, ?_, ?_, ?_⟩
  · intro k
    rw [alHas_congr_keys _ deg hkeysEq k]
    exact inv.keysHas k
  · rw [hkeysEq]
    exact inv.keysND
  · exact hdegVal'
  · rw [hq1]
    exact hndNew
  · rw [hq1]
    exact hmemNew
  · rw [hq1]
    exact hnonposNew
  · -- readiness of the new queue
    rw [hq1]
    intro x hx n hn he p hp hpres
    rcases List.mem_append.mp hx with hx | hx
    · exact List.mem_append.mpr
        (Or.inl (inv.qReady x (List.mem_cons_of_mem c hx) n hn he p hp hpres))
    · -- x newly pushed: its in-degree dropped to ≤ 0, so all present deps are emitted
      have hle : alGetD (sortStep nodes c (q, deg)).2 x ≤ 0 :=
        hnonposNew x (List.mem_append.mpr (Or.inr (List.mem_append.mpr (Or.inr hx))))
      rw [hdegVal' x] at hle
      have hsm : sCount nodes (sorted ++ [c]) x ≤ mCount nodes x :=
        sCount_le_mCount nodes (sorted ++ [c]) x hndSorted' hmemSorted'
      have heq : mCount nodes x = sCount nodes (sorted ++ [c]) x := by omega
      -- squeeze to a per-record equality
      have hterm := map_sum_eq_of_pointwise_le
        (fun n => ((sorted ++ [c]).filter (fun e => n.dependsOn.contains e)).length)
        (fun n => (n.dependsOn.filter (fun d => hasNode nodes d)).length)
        (nodes.filter (fun n => n.changeId = x))
        (fun m hm => by
          have hAnd : ((sorted ++ [c]).filter
              (fun e => m.dependsOn.contains e)).Nodup := hndSorted'.filter _
          have hsub : ((sorted ++ [c]).filter (fun e => m.dependsOn.contains e)) ⊆
              m.dependsOn.filter (fun d => hasNode nodes d) := by
            intro e hee
            rw [List.mem_filter] at hee
            rw [List.mem_filter]
            exact ⟨by simpa using hee.2, hmemSorted' e hee.1⟩
          exact (hAnd.subperm hsub).length_le)
        (by
          rw [mCount, sCount] at heq
          omega)
      have hnf : n ∈ nodes.filter (fun n => n.changeId = x) :=
        List.mem_filter.mpr ⟨hn, by simpa using he⟩
      have hfl := hterm n hnf
      exact deps_subset_of_filter_len nodes n
        (sorted ++ [c]) hndSorted' hmemSorted' hfl p hp hpres
  · -- topological ordering of the extended prefix
    intro n hn hmem p hp hpres
    rcases List.mem_append.mp hmem with hmem | hmem
    · obtain ⟨hps, hidx⟩ := inv.topo n hn hmem p hp hpres
      refine ⟨List.mem_append.mpr (Or.inl hps), ?_⟩
      rw [List.indexOf_append_of_mem hps, List.indexOf_append_of_mem hmem]
      exact hidx
    · rw [List.mem_singleton] at hmem
      have hps : p ∈ sorted :=
        inv.qReady c (List.mem_cons_self c q) n hn hmem p hp hpres
      refine ⟨List.mem_append.mpr (Or.inl hps), ?_⟩
      rw [List.indexOf_append_of_mem hps]
      rw [hmem, indexOf_append_right_self sorted c hcNotSorted]
      exact List.indexOf_lt_length.mpr hps

theorem sortLoop_spec (nodes : List Node) :
    ∀ (fuel : Nat) (q : List String) (deg : DegMap) (sorted : List String),
      SortInv nodes q deg sorted → mu q deg ≤ fuel →
      SortedOut nodes (sortLoop nodes fuel q deg sorted) := by
  intro fuel
  induction fuel with
  | zero =>
      intro q deg sorted inv hmu
      match q with
      | [] =>
          refine ⟨by simpa using inv.nd, ?_, ?_⟩
          · intro x hx
            exact inv.memAll x (by simpa using hx)
          · exact inv.topo
      | c :: q' =>
          exfalso
          rw [mu] at hmu
          simp at hmu
  | succ f ih =>
      intro q deg sorted inv hmu
      match q with
      | [] =>
          refine ⟨by simpa using inv.nd, ?_, ?_⟩
          · intro x hx
            exact inv.memAll x (by simpa using hx)
          · exact inv.topo
      | c :: q' =>
          show SortedOut nodes
            (sortLoop nodes f (sortStep nodes c (q', deg)).1
              (sortStep nodes c (q', deg)).2 (sorted ++ [c]))
          refine ih _ _ _ (sortInv_step nodes c q' deg sorted inv) ?_
          have h1 : mu (sortStep nodes c (q', deg)).1 (sortStep nodes c (q', deg)).2 ≤
              mu q' deg := mu_sortStep nodes c (q', deg)
          rw [mu] at hmu ⊢
          rw [mu, mu] at h1
          simp only [List.length_cons] at hmu
          omega

theorem seedQueue_initial_inv (nodes : List Node) :
    SortInv nodes (seedQueue (buildInDegree nodes)) (buildInDegree nodes) [] := by
  have hseedKeys : ∀ x ∈ seedQueue (buildInDegree nodes),
      ∃ v, (x, v) ∈ buildInDegree nodes ∧ v = 0 := by
    intro x hx
    rw [seedQueue] at hx
    obtain ⟨p, hp, he⟩ := List.mem_map.mp hx
    rw [List.mem_filter] at hp
    refine ⟨p.2, ?_, by simpa using hp.2⟩
    have hpe : p = (x, p.2) := by rw [← he]
    rw [← hpe]
    exact hp.1
  have hseedGetD : ∀ x ∈ seedQueue (buildInDegree nodes),
      alGetD (buildInDegree nodes) x = 0 := by
    intro x hx
    obtain ⟨v, hv, he⟩ := hseedKeys x hx
    rw [he] at hv
    exact alGetD_of_mem_of_nodup _ x 0 (buildInDegree_keysND nodes) hv
  have hseedMem : ∀ x ∈ seedQueue (buildInDegree nodes), hasNode nodes x = true := by
    intro x hx
    obtain ⟨v, hv, _⟩ := hseedKeys x hx
    refine (buildInDegree_has nodes x).mp ?_
    exact (alHas_iff_mem_keys _ x).mpr (List.mem_map.mpr ⟨(x, v), hv, rfl⟩)
  refine ⟨buildInDegree_has nodes, buildInDegree_keysND nodes, ?_, ?_, ?_, ?_, ?_, ?_⟩
  · intro k
    rw [buildInDegree_getD nodes k, sCount_nil]
    omega
  · rw [List.nil_append, seedQueue]
    have hsub : List.Sublist
        (((buildInDegree nodes).filter (fun p => p.2 = 0)).map (fun p => p.1))
        ((buildInDegree nodes).map (fun p => p.1)) :=
      List.Sublist.map _ (List.filter_sublist _)
    have hnd : ((buildInDegree nodes).map (fun p => p.1)).Nodup :=
      buildInDegree_keysND nodes
    exact hnd.sublist hsub
  · intro x hx
    exact hseedMem x (by simpa using hx)
  · intro x hx
    rw [hseedGetD x (by simpa using hx)]
  · -- a seed node has in-degree zero, so it has no present dependencies
    intro x hx n hn he p hp hpres
    exfalso
    have h0 := hseedGetD x hx
    rw [buildInDegree_getD nodes x] at h0
    have hm0 : mCount nodes x = 0 := by omega
    rw [mCount] at hm0
    have hterm : (n.dependsOn.filter (fun d => hasNode nodes d)).length = 0 := by
      have hnf : n ∈ nodes.filter (fun n => n.changeId = x) :=
        List.mem_filter.mpr ⟨hn, by simpa using he⟩
      exact (List.sum_eq_zero_iff).mp hm0 _ (List.mem_map.mpr ⟨n, hnf, rfl⟩)
    have hpf : p ∈ n.dependsOn.filter (fun d => hasNode nodes d) :=
      List.mem_filter.mpr ⟨hp, hpres⟩
    rw [List.length_eq_zero] at hterm
    rw [hterm] at hpf
    simp at hpf
  · intro n _ hmem
    simp at hmem

theorem topologicalSort_spec (nodes : List Node) (sorted : List String)
    (h : topologicalSort nodes = .ok sorted) :
    sorted.Nodup ∧ (∀ x ∈ sorted, hasNode nodes x = true) ∧
      sorted.length = nodes.length ∧
      (∀ n ∈ nodes, n.changeId ∈ sorted → ∀ p ∈ n.dependsOn,
        hasNode nodes p = true →
          p ∈ sorted ∧ List.indexOf p sorted < List.indexOf n.changeId sorted) := by
  have hout : SortedOut nodes
      (sortLoop nodes
        ((seedQueue (buildInDegree nodes)).length + degSum (buildInDegree nodes))
        (seedQueue (buildInDegree nodes)) (buildInDegree nodes) []) :=
    sortLoop_spec nodes _ _ _ _ (seedQueue_initial_inv nodes) (by rw [mu])
  rw [topologicalSort] at h
  by_cases hlen : (sortLoop nodes
      ((seedQueue (buildInDegree nodes)).length + degSum (buildInDegree nodes))
      (seedQueue (buildInDegree nodes)) (buildInDegree nodes) []).length =
      nodes.length
  · rw [if_pos hlen] at h
    have he : sortLoop nodes
        ((seedQueue (buildInDegree nodes)).length + degSum (buildInDegree nodes))
        (seedQueue (buildInDegree nodes)) (buildInDegree nodes) [] = sorted := by
      injection h
    rw [he] at hout hlen
    exact ⟨hout.1, hout.2.1, hlen, hout.2.2⟩
  · rw [if_neg hlen] at h
    exact absurd h (by simp)

/-- On success the emitted order is a permutation of the node ids; in
particular every node id occurs in it. -/
theorem topologicalSort_perm (nodes : List Node) (sorted : List String)
    (h : topologicalSort nodes = .ok sorted) :
    sorted.Perm (nodes.map (fun n => n.changeId)) := by
  obtain ⟨hnd, hmem, hlen, _⟩ := topologicalSort_spec nodes sorted h
  have hsub : sorted ⊆ nodes.map (fun n => n.changeId) := by
    intro x hx
    obtain ⟨n, hn, he⟩ := List.any_eq_true.mp (hmem x hx)
    exact List.mem_map.mpr ⟨n, hn, by simpa using he⟩
  have hsp := hnd.subperm hsub
  refine hsp.perm_of_length_le ?_
  rw [hlen, List.length_map]

/-! ## Lemmas: buildExecutionPlan -/

theorem topologicalSort_error_msg (nodes : List Node) (e : String)
    (h : topologicalSort nodes = .error e) : e = circularMsg := by
  rw [topologicalSort] at h
  split at h
  · simp at h
  · injection h with h
    exact h.symm

theorem buildExecutionPlan_ok_parts (inputs : List ChangeInput) (plan : ExecutionPlan)
    (h : buildExecutionPlan inputs = .ok plan) :
    plan.changes = planNodes inputs ∧
      topologicalSort (planNodes inputs) = .ok plan.executionOrder ∧
      plan.parallelBatches =
        identifyParallelBatches (planNodes inputs) plan.executionOrder := by
  rw [buildExecutionPlan] at h
  cases hts : topologicalSort (planNodes inputs) with
  | error e =>
      rw [hts] at h
      simp at h
  | ok sorted =>
      rw [hts] at h
      simp only [Except.ok.injEq] at h
      rw [← h]
      exact ⟨rfl, rfl, rfl⟩

theorem buildExecutionPlan_error_of_sort_error (inputs : List ChangeInput)
    (h : ∀ sorted, topologicalSort (planNodes inputs) ≠ .ok sorted) :
    buildExecutionPlan inputs = .error circularMsg := by
  rw [buildExecutionPlan]
  cases hts : topologicalSort (planNodes inputs) with
  | error e =>
      rw [topologicalSort_error_msg _ _ hts]
  | ok sorted => exact absurd hts (h sorted)

theorem planNodes_ids (inputs : List ChangeInput) :
    (planNodes inputs).map (fun n => n.changeId) =
      inputs.map (fun it => it.changeId) := by
  rw [planNodes, List.map_map]
  rfl

theorem chain_lt_last (f : String → Nat) :
    ∀ (l : List String) (a b : String),
      List.Chain (fun x y => f x < f y) a (l ++ [b]) → f a < f b := by
  intro l
  induction l with
  | nil =>
      intro a b h
      rw [List.nil_append] at h
      exact (List.chain_cons.mp h).1
  | cons x t ih =>
      intro a b h
      rw [List.cons_append] at h
      obtain ⟨h1, h2⟩ := List.chain_cons.mp h
      exact lt_trans h1 (ih x b h2)

/-! ## Lemmas: parallel-batch partitioning -/

theorem batchLoop_cons_none (nodes : List Node) (id : String) (rest : List String)
    (batches : List (List String)) (completedIds : List String)
    (hget : nodeMapGet nodes id = none) :
    batchLoop nodes (id :: rest) batches completedIds =
      batchLoop nodes rest batches completedIds := by
  simp [batchLoop, hget]

theorem batchLoop_cons_some (nodes : List Node) (id : String) (rest : List String)
    (batches : List (List String)) (completedIds : List String) (node : Node)
    (hget : nodeMapGet nodes id = some node) :
    batchLoop nodes (id :: rest) batches completedIds =
      batchLoop nodes rest
        (if node.dependsOn.all (fun d => completedIds.contains d) then
          addToBatches nodes node id batches
        else batches)
        (completedIds ++ [id]) := by
  simp [batchLoop, hget]

theorem flatten_addToBatches (nodes : List Node) (node : Node) (id : String) :
    ∀ batches : List (List String),
      List.Perm (addToBatches nodes node id batches).flatten
        (id :: batches.flatten) := by
  intro batches
  induction batches with
  | nil => simp [addToBatches]
  | cons b bs ih =>
      rw [addToBatches]
      by_cases hc : hasConflict nodes node id b = true
      · rw [if_pos hc]
        simp only [List.flatten_cons]
        refine List.Perm.trans (List.Perm.append_left b ih) ?_
        exact List.perm_middle
      · rw [if_neg hc]
        simp only [List.flatten_cons]
        rw [List.append_assoc, List.singleton_append]
        exact List.perm_middle

theorem batchLoop_flatten (nodes : List Node) :
    ∀ (todo : List String) (batches : List (List String)) (completedIds : List String),
      (∀ t1 id t2, todo = t1 ++ id :: t2 →
        ∃ node, nodeMapGet nodes id = some node ∧
          ∀ d ∈ node.dependsOn, d ∈ completedIds ++ t1) →
      List.Perm (batchLoop nodes todo batches completedIds).flatten
        (batches.flatten ++ todo) := by
  intro todo
  induction todo with
  | nil =>
      intro batches completedIds _
      rw [batchLoop, List.append_nil]
  | cons id rest ih =>
      intro batches completedIds H
      obtain ⟨node, hget, hdeps⟩ := H [] id rest rfl
      have hcan : node.dependsOn.all (fun d => completedIds.contains d) = true := by
        rw [List.all_eq_true]
        intro d hd
        have hmem := hdeps d hd
        rw [List.append_nil] at hmem
        simpa using hmem
      rw [batchLoop_cons_some nodes id rest batches completedIds node hget, if_pos hcan]
      have hH : ∀ t1 i t2, rest = t1 ++ i :: t2 →
          ∃ nd, nodeMapGet nodes i = some nd ∧
            ∀ d ∈ nd.dependsOn, d ∈ (completedIds ++ [id]) ++ t1 := by
        intro t1 i t2 he
        obtain ⟨nd, h1, h2⟩ := H (id :: t1) i t2 (by rw [he, List.cons_append])
        refine ⟨nd, h1, fun d hd => ?_⟩
        have := h2 d hd
        rwa [List.append_assoc, List.singleton_append]
      refine List.Perm.trans
        (ih (addToBatches nodes node id batches) (completedIds ++ [id]) hH) ?_
      refine List.Perm.trans
        (List.Perm.append_right rest (flatten_addToBatches nodes node id batches)) ?_
      rw [List.cons_append]
      exact (List.perm_middle).symm

theorem addToBatches_pairFree (nodes : List Node) (node : Node) (id : String)
    (hget : nodeMapGet nodes id = some node) :
    ∀ batches : List (List String), (∀ b ∈ batches, pairFree nodes b) →
      ∀ b ∈ addToBatches nodes node id batches, pairFree nodes b := by
  intro batches
  induction batches with
  | nil =>
      intro _ b hb
      rw [addToBatches] at hb
      rw [List.mem_singleton] at hb
      subst hb
      intro x hx y hy hxy
      rw [List.mem_singleton] at hx hy
      exact absurd (hx.trans hy.symm) hxy
  | cons b0 bs ih =>
      intro hall b hb
      rw [addToBatches] at hb
      by_cases hc : hasConflict nodes node id b0 = true
      · rw [if_pos hc] at hb
        rcases List.mem_cons.mp hb with hb | hb
        · exact hb ▸ hall b0 (List.mem_cons_self b0 bs)
        · exact ih (fun b' hb' => hall b' (List.mem_cons_of_mem b0 hb')) b hb
      · rw [if_neg hc] at hb
        rcases List.mem_cons.mp hb with hb | hb
        · subst hb
          have hnc : ∀ bid ∈ b0,
              dependsB nodes id bid = false ∧ node.dependsOn.contains bid = false := by
            intro bid hbid
            have h1 : ¬ ((match nodeMapGet nodes bid with
                | some bn => bn.dependsOn.contains id
                | none => false)
                || node.dependsOn.contains bid) = true := by
              intro habs
              exact hc (List.any_eq_true.mpr ⟨bid, hbid, habs⟩)
            rw [Bool.or_eq_true] at h1
            push_neg at h1
            constructor
            · rw [dependsB]
              cases hg : nodeMapGet nodes bid with
              | none => rfl
              | some bn =>
                  have := h1.1
                  rw [hg] at this
                  simpa using this
            · simpa using h1.2
          intro x hx y hy hxy
          rcases List.mem_append.mp hx with hx | hx
          · rcases List.mem_append.mp hy with hy | hy
            · exact hall b0 (List.mem_cons_self b0 bs) x hx y hy hxy
            · rw [List.mem_singleton] at hy
              rw [hy]
              have hd : dependsB nodes x id = node.dependsOn.contains x := by
                simp [dependsB, hget]
              rw [hd]
              exact (hnc x hx).2
          · rw [List.mem_singleton] at hx
            rcases List.mem_append.mp hy with hy | hy
            · rw [hx]
              exact (hnc y hy).1
            · rw [List.mem_singleton] at hy
              rw [hx, hy] at hxy
              exact absurd rfl hxy
        · exact hall b (List.mem_cons_of_mem b0 hb)

theorem batchLoop_pairFree (nodes : List Node) :
    ∀ (todo : List String) (batches : List (List String)) (completedIds : List String),
      (∀ b ∈ batches, pairFree nodes b) →
      ∀ b ∈ batchLoop nodes todo batches completedIds, pairFree nodes b := by
  intro todo
  induction todo with
  | nil =>
      intro batches completedIds hall b hb
      rw [batchLoop] at hb
      exact hall b hb
  | cons id rest ih =>
      intro batches completedIds hall b hb
      cases hget : nodeMapGet nodes id with
      | none =>
          rw [batchLoop_cons_none nodes id rest batches completedIds hget] at hb
          exact ih batches completedIds hall b hb
      | some node =>
          rw [batchLoop_cons_some nodes id rest batches completedIds node hget] at hb
          by_cases hcan : node.dependsOn.all (fun d => completedIds.contains d) = true
          · rw [if_pos hcan] at hb
            exact ih _ _ (addToBatches_pairFree nodes node id hget batches hall) b hb
          · rw [if_neg hcan] at hb
            exact ih batches _ hall b hb

theorem identifyParallelBatches_pairFree (nodes : List Node) (order : List String)
    (b : List String) (hb : b ∈ identifyParallelBatches nodes order) :
    pairFree nodes b :=
  batchLoop_pairFree nodes order [] [] (by simp) b hb

theorem nodeMapGet_eq_of_nodup (nodes : List Node)
    (hnd : (nodes.map (fun n => n.changeId)).Nodup) (n : Node) (hn : n ∈ nodes) :
    nodeMapGet nodes n.changeId = some n := by
  rw [nodeMapGet]
  have hex : (nodes.reverse.find? (fun m => m.changeId = n.changeId)).isSome := by
    rw [List.find?_isSome]
    exact ⟨n, List.mem_reverse.mpr hn, by simp⟩
  obtain ⟨m, hm⟩ := Option.isSome_iff_exists.mp hex
  have hmm : m ∈ nodes := List.mem_reverse.mp (List.mem_of_find?_eq_some hm)
  have hme : m.changeId = n.changeId := by
    have := List.find?_some hm
    simpa using this
  have : m = n :=
    List.inj_on_of_nodup_map hnd hmm hn hme
  rw [hm, this]

theorem indexOf_append_of_not_mem (l1 l2 : List String) (a : String) (h : a ∉ l1) :
    List.indexOf a (l1 ++ l2) = l1.length + List.indexOf a l2 := by
  induction l1 with
  | nil => simp
  | cons x t ih =>
      have hne : x ≠ a := fun he => h (he ▸ List.mem_cons_self x t)
      rw [List.cons_append, List.indexOf_cons_ne _ hne,
        ih (fun hm => h (List.mem_cons_of_mem x hm)), List.length_cons]
      omega

/-! ## Lemmas: plan validation -/

theorem validate_error_mem (plan : ExecutionPlan) (n : Node) (dep : String)
    (hn : n ∈ plan.changes) (hdep : dep ∈ n.dependsOn)
    (hmiss : hasNode plan.changes dep = false) :
    vErrMsg n.changeId dep ∈ (validateExecutionPlan plan).2 := by
  rw [validateExecutionPlan]
  rw [List.mem_flatten]
  refine ⟨_, List.mem_map.mpr ⟨n, hn, rfl⟩, ?_⟩
  exact List.mem_map.mpr ⟨dep, List.mem_filter.mpr ⟨hdep, by simp [hmiss]⟩, rfl⟩

theorem validateExecutionPlan_valid_iff (plan : ExecutionPlan) :
    (validateExecutionPlan plan).1 = true ↔
      ∀ n ∈ plan.changes, ∀ dep ∈ n.dependsOn,
        hasNode plan.changes dep = true := by
  constructor
  · intro hv n hn dep hdep
    cases hpres : hasNode plan.changes dep with
    | true => rfl
    | false =>
        exfalso
        have hmem := validate_error_mem plan n dep hn hdep hpres
        rw [validateExecutionPlan] at hv
        have hnil := List.isEmpty_iff.mp hv
        rw [validateExecutionPlan] at hmem
        rw [hnil] at hmem
        simp at hmem
  · intro hall
    rw [validateExecutionPlan]
    rw [List.isEmpty_iff]
    refine List.eq_nil_iff_forall_not_mem.mpr ?_
    intro e he
    rw [List.mem_flatten] at he
    obtain ⟨s, hs, hes⟩ := he
    obtain ⟨n, hn, hrfl⟩ := List.mem_map.mp hs
    rw [← hrfl] at hes
    obtain ⟨dep, hdep, _⟩ := List.mem_map.mp hes
    rw [List.mem_filter] at hdep
    have := hall n hn dep hdep.1
    rw [this] at hdep
    simp at hdep

/-! ## Lemmas: the orchestration run -/

theorem contains_iff_mem (l : List String) (a : String) :
    l.contains a = true ↔ a ∈ l := by
  simp

theorem contains_append_eq (l1 l2 : List String) (a : String) :
    (l1 ++ l2).contains a = (l1.contains a || l2.contains a) := by
  rw [Bool.eq_iff_iff]
  simp [List.mem_append]

theorem runBatch_log_no_destroy (env : Env) (bids : List String) (st : RunSt)
    (h : PoolOp.destroyPool ∉ st.log) :
    PoolOp.destroyPool ∉ (runBatch env bids st).log := by
  rw [runBatch]
  by_cases h1 : (readyIdsOf bids st).isEmpty = true
  · rw [if_pos h1]
    exact h
  · rw [if_neg h1]
    by_cases h2 : env.spawnOk st.spawnIdx = true
    · rw [if_pos h2]
      show PoolOp.destroyPool ∉
        st.log ++ [PoolOp.spawnBatch (readyIdsOf bids st)] ++
          (readyIdsOf bids st).map PoolOp.orchestrate
      intro hmem
      rcases List.mem_append.mp hmem with hmem | hmem
      · rcases List.mem_append.mp hmem with hmem | hmem
        · exact h hmem
        · rw [List.mem_singleton] at hmem
          exact PoolOp.noConfusion hmem
      · obtain ⟨x, _, he⟩ := List.mem_map.mp hmem
        exact PoolOp.noConfusion he
    · rw [if_neg h2]
      show PoolOp.destroyPool ∉
        st.log ++ [PoolOp.spawnBatch (readyIdsOf bids st)]
      intro hmem
      rcases List.mem_append.mp hmem with hmem | hmem
      · exact h hmem
      · rw [List.mem_singleton] at hmem
        exact PoolOp.noConfusion hmem

theorem runBatches_log_no_destroy (env : Env) :
    ∀ (batches : List (List String)) (st : RunSt),
      PoolOp.destroyPool ∉ st.log →
      PoolOp.destroyPool ∉ (runBatches env batches st).log := by
  intro batches
  induction batches with
  | nil => intro st h; exact h
  | cons bids rest ih =>
      intro st h
      rw [runBatches]
      split
      · exact h
      · exact ih _ (runBatch_log_no_destroy env bids st h)

theorem nodeOutcome_status_irrel (env : Env) (n : Node) (s : NodeStatus) :
    nodeOutcome env { n with status := s } = nodeOutcome env n := rfl

theorem execGate_eq (env : Env) (bids : List String) (n : Node) :
    execNode env bids (gateNode [] bids n) =
      if bids.contains n.changeId then { n with status := nodeOutcome env n }
      else n := by
  by_cases hm : bids.contains n.changeId = true
  · have hm' : n.changeId ∈ bids := by simpa using hm
    cases hdep : n.dependsOn with
    | nil =>
        by_cases ho : env.orchOk n.changeId = true
        · simp [gateNode, execNode, nodeOutcome, hm, hm', hdep, ho]
        · simp [gateNode, execNode, nodeOutcome, hm, hm', hdep, ho]
    | cons d ds =>
        simp [gateNode, execNode, nodeOutcome, hm, hm', hdep]
  · have hm' : n.changeId ∉ bids := by simpa using hm
    simp [gateNode, execNode, hm, hm']

theorem runBatch_char (env : Env) (bids : List String) (st : RunSt)
    (hsp : env.spawnOk st.spawnIdx = true) (hc : st.completedChanges = [])
    (ha : st.aborted = false) :
    (runBatch env bids st).nodes =
        st.nodes.map (fun n =>
          if bids.contains n.changeId then { n with status := nodeOutcome env n }
          else n) ∧
      (runBatch env bids st).completedChanges = [] ∧
      (runBatch env bids st).aborted = false := by
  rw [runBatch]
  by_cases hready : (readyIdsOf bids st).isEmpty = true
  · rw [if_pos hready]
    refine ⟨?_, hc, ha⟩
    have hready' : (gatedNodes bids st).filter
        (fun n => bids.contains n.changeId && n.status == .ready) = [] := by
      rw [readyIdsOf, List.isEmpty_iff, List.map_eq_nil_iff] at hready
      exact hready
    show gatedNodes bids st = _
    rw [gatedNodes, hc]
    refine List.map_congr_left ?_
    intro n hn
    by_cases hm : bids.contains n.changeId = true
    · have hm' : n.changeId ∈ bids := by simpa using hm
      cases hdep : n.dependsOn with
      | nil =>
          exfalso
          have hgmem : gateNode [] bids n ∈
              (gatedNodes bids st).filter
                (fun n => bids.contains n.changeId && n.status == .ready) := by
            rw [List.mem_filter]
            constructor
            · rw [gatedNodes, hc]
              exact List.mem_map.mpr ⟨n, hn, rfl⟩
            · simp [gateNode, hm, hm', hdep]
          rw [hready'] at hgmem
          simp at hgmem
      | cons d ds =>
          simp [gateNode, nodeOutcome, hm, hm', hdep]
    · have hm' : n.changeId ∉ bids := by simpa using hm
      simp [gateNode, hm, hm']
  · rw [if_neg hready, if_pos hsp]
    refine ⟨?_, ?_, rfl⟩
    · show (gatedNodes bids st).map (execNode env bids) = _
      rw [gatedNodes, hc, List.map_map]
      refine List.map_congr_left ?_
      intro n _
      show execNode env bids (gateNode [] bids n) = _
      exact execGate_eq env bids n
    · show st.completedChanges ++
          ((((gatedNodes bids st).map (execNode env bids)).filter
            (fun n => bids.contains n.changeId && n.status == .completed)).map
            (fun n => n.changeId)) = []
      rw [hc, List.nil_append]
      have hfil : ((gatedNodes bids st).map (execNode env bids)).filter
          (fun n => bids.contains n.changeId && n.status == .completed) = [] := by
        rw [List.filter_eq_nil_iff]
        intro n hn
        rw [gatedNodes, hc, List.map_map] at hn
        obtain ⟨m, _, hrfl⟩ := List.mem_map.mp hn
        have hrfl' : execNode env bids (gateNode [] bids m) = n := hrfl
        rw [← hrfl', execGate_eq]
        by_cases hm : bids.contains m.changeId = true
        · rw [if_pos hm]
          rw [nodeOutcome]
          by_cases hd : m.dependsOn.isEmpty = true
          · rw [if_pos hd]
            by_cases ho : env.orchOk m.changeId = true
            · simp [ho]
            · simp [ho]
          · rw [if_neg hd]
            simp
        · rw [if_neg hm]
          have hm2 : m.changeId ∉ bids := by simpa using hm
          simp [hm2]
      rw [hfil]
      rfl

theorem runBatches_char (env : Env) (hspawn : ∀ k, env.spawnOk k = true) :
    ∀ (batches : List (List String)) (st : RunSt),
      st.completedChanges = [] → st.aborted = false →
      (runBatches env batches st).nodes =
          st.nodes.map (fun n =>
            if batches.flatten.contains n.changeId then
              { n with status := nodeOutcome env n }
            else n) ∧
        (runBatches env batches st).completedChanges = [] ∧
        (runBatches env batches st).aborted = false := by
  intro batches
  induction batches with
  | nil =>
      intro st hc ha
      rw [runBatches]
      refine ⟨?_, hc, ha⟩
      have hid : ∀ n ∈ st.nodes,
          (if List.contains ([] : List (List String)).flatten n.changeId then
            { n with status := nodeOutcome env n } else n) = id n := by
        intro n _
        simp [List.flatten]
      rw [List.map_congr_left hid, List.map_id]
  | cons bids rest ih =>
      intro st hc ha
      rw [runBatches]
      rw [if_neg (by rw [ha]; exact Bool.false_ne_true)]
      obtain ⟨h1, h2, h3⟩ := runBatch_char env bids st (hspawn st.spawnIdx) hc ha
      obtain ⟨h4, h5, h6⟩ := ih (runBatch env bids st) h2 h3
      refine ⟨?_, h5, h6⟩
      rw [h4, h1, List.map_map]
      refine List.map_congr_left ?_
      intro n _
      have hcc : (bids :: rest).flatten.contains n.changeId =
          (bids.contains n.changeId || rest.flatten.contains n.changeId) := by
        rw [List.flatten_cons, contains_append_eq]
      clear hcc
      by_cases hm : bids.contains n.changeId = true
      · have hm' : n.changeId ∈ bids := by simpa using hm
        by_cases hr : rest.flatten.contains n.changeId = true
        · have hr' : ∃ l ∈ rest, n.changeId ∈ l := by
            simpa [List.mem_flatten] using (contains_iff_mem _ _).mp hr
          simp [hm', hr', nodeOutcome_status_irrel]
        · have hr' : ¬ ∃ l ∈ rest, n.changeId ∈ l := by
            intro habs
            exact hr ((contains_iff_mem _ _).mpr (List.mem_flatten.mpr habs))
          simp [hm', hr', nodeOutcome_status_irrel]
      · have hm' : n.changeId ∉ bids := by simpa using hm
        by_cases hr : rest.flatten.contains n.changeId = true
        · have hr' : ∃ l ∈ rest, n.changeId ∈ l := by
            simpa [List.mem_flatten] using (contains_iff_mem _ _).mp hr
          simp [hm', hr']
        · have hr' : ¬ ∃ l ∈ rest, n.changeId ∈ l := by
            intro habs
            exact hr ((contains_iff_mem _ _).mpr (List.mem_flatten.mpr habs))
          simp [hm', hr']

theorem finishRun_log (plan : ExecutionPlan) (st : RunSt) :
    (finishRun plan st).log = st.log := by
  rw [finishRun]
  split_ifs <;> rfl

theorem finishRun_nodes (plan : ExecutionPlan) (st : RunSt) :
    (finishRun plan st).nodes = st.nodes := by
  rw [finishRun]
  split_ifs <;> rfl

theorem plan_order_ready (inputs : List ChangeInput) (plan : ExecutionPlan)
    (h : buildExecutionPlan inputs = .ok plan)
    (hv : (validateExecutionPlan plan).1 = true) :
    ∀ t1 id t2, plan.executionOrder = t1 ++ id :: t2 →
      ∃ node, nodeMapGet (planNodes inputs) id = some node ∧
        ∀ d ∈ node.dependsOn, d ∈ ([] : List String) ++ t1 := by
  obtain ⟨hch, hts, _⟩ := buildExecutionPlan_ok_parts inputs plan h
  obtain ⟨hnd, hmems, _, htopo⟩ := topologicalSort_spec _ _ hts
  have hperm := topologicalSort_perm _ _ hts
  have hidnd : ((planNodes inputs).map (fun n => n.changeId)).Nodup :=
    (hperm.nodup_iff).mp hnd
  intro t1 id t2 hsplit
  have hidmem : id ∈ plan.executionOrder := by
    rw [hsplit]
    exact List.mem_append.mpr (Or.inr (List.mem_cons_self _ _))
  have hpres := hmems id hidmem
  obtain ⟨n, hn, hne⟩ := List.any_eq_true.mp hpres
  have hne' : n.changeId = id := by simpa using hne
  have hget : nodeMapGet (planNodes inputs) id = some n := by
    rw [← hne']
    exact nodeMapGet_eq_of_nodup _ hidnd n hn
  refine ⟨n, hget, ?_⟩
  intro d hd
  rw [List.nil_append]
  have hdpres : hasNode (planNodes inputs) d = true := by
    have hvp := (validateExecutionPlan_valid_iff plan).mp hv n
      (by rw [hch]; exact hn) d hd
    rwa [hch] at hvp
  have hidin : n.changeId ∈ plan.executionOrder := by
    rw [hne']
    exact hidmem
  obtain ⟨hdin, hidx⟩ := htopo n hn hidin d hd hdpres
  rw [hne'] at hidx
  have hndo : plan.executionOrder.Nodup := hnd
  rw [hsplit] at hndo hdin hidx
  rw [List.nodup_append] at hndo
  have hidnt1 : id ∉ t1 := fun hmem => hndo.2.2 hmem (List.mem_cons_self id t2)
  have hidxid : List.indexOf id (t1 ++ id :: t2) = t1.length := by
    rw [indexOf_append_of_not_mem t1 (id :: t2) id hidnt1, List.indexOf_cons_self]
    omega
  rcases List.mem_append.mp hdin with hdt1 | hdt2
  · exact hdt1
  · exfalso
    have hdnt1 : d ∉ t1 := fun hmem => hndo.2.2 hmem hdt2
    have hdx : List.indexOf d (t1 ++ id :: t2) =
        t1.length + List.indexOf d (id :: t2) :=
      indexOf_append_of_not_mem t1 _ d hdnt1
    omega

/-! ## The claims -/

/-- C1 (code bug, failing input): executing a plan whose single node "a"
has no dependencies, with every remote call succeeding, returns normally —
but the node ends with status `in-progress`, not one of
{completed, failed, blocked}, the result's `success` flag is `true` and
its completed list is empty: `executeExecutionPlan` invokes
`executeParallelBatch` without `waitForCompletion`, so `executeChange`
marks the node in-progress and returns without ever completing it. -/
theorem executePlan_leaves_successful_node_inProgress :
    executeExecutionPlan soloPlan allOkEnv =
      some { nodes := [⟨"a", [], .inProgress⟩]
             result :=
               { success := true
                 completedChanges := []
                 failedChanges := [] }
             log := [.initPool, .spawnBatch ["a"], .orchestrate "a"] } := by
  decide

/-- C2 (counterexample): a run of `executeExecutionPlan` that returns a
result whose pool-operation log contains no pool-destroy call — refuting
the claim that the pool is destroyed before the result reaches the
caller. -/
theorem executePlan_concrete_run_never_destroys_pool :
    (executeExecutionPlan soloPlan allOkEnv).isSome = true ∧
      (executeExecutionPlan soloPlan allOkEnv).map
        (fun out => out.log.contains PoolOp.destroyPool) = some false := by
  decide

/-- C2 (amended): `executeExecutionPlan` never invokes the pool-destroy
operation: whenever it returns a result, the run's pool-operation log
contains no destroy call.  `destroySwarm` exists but is not called by the
orchestrator or its caller. -/
theorem executePlan_log_has_no_destroy (plan : ExecutionPlan) (env : Env)
    (out : RunOut) (h : executeExecutionPlan plan env = some out) :
    PoolOp.destroyPool ∉ out.log := by
  rw [executeExecutionPlan] at h
  by_cases hinit : env.initOk = true
  · rw [if_pos hinit, Option.some.injEq] at h
    rw [← h, finishRun_log]
    refine runBatches_log_no_destroy env _ _ ?_
    intro hmem
    rw [initRunSt] at hmem
    rw [List.mem_singleton] at hmem
    exact PoolOp.noConfusion hmem
  · rw [if_neg hinit] at h
    exact absurd h (by simp)

/-- C2 witness: the no-destroy theorem applied to the concrete successful
run. -/
theorem executePlan_log_has_no_destroy_witness :
    PoolOp.destroyPool ∉
      ({ nodes := [⟨"a", [], .inProgress⟩]
         result :=
           { success := true
             completedChanges := []
             failedChanges := [] }
         log := [.initPool, .spawnBatch ["a"], .orchestrate "a"] } : RunOut).log :=
  executePlan_log_has_no_destroy soloPlan allOkEnv _ (by decide)

/-- C3: whenever `buildExecutionPlan` returns a plan, every dependency edge
(p, d) with both endpoints among the supplied items has p strictly before
d in the plan's execution order. -/
theorem buildExecutionPlan_topological_order (inputs : List ChangeInput)
    (plan : ExecutionPlan) (h : buildExecutionPlan inputs = .ok plan)
    (n : Node) (hn : n ∈ plan.changes) (p : String) (hp : p ∈ n.dependsOn)
    (hpres : ∃ m ∈ plan.changes, m.changeId = p) :
    List.indexOf p plan.executionOrder <
      List.indexOf n.changeId plan.executionOrder := by
  obtain ⟨hch, hts, _⟩ := buildExecutionPlan_ok_parts inputs plan h
  obtain ⟨_, _, _, htopo⟩ := topologicalSort_spec _ _ hts
  have hperm := topologicalSort_perm _ _ hts
  rw [hch] at hn hpres
  have hmem : n.changeId ∈ plan.executionOrder :=
    hperm.mem_iff.mpr (List.mem_map.mpr ⟨n, hn, rfl⟩)
  have hpres' : hasNode (planNodes inputs) p = true := hasNode_of_ex _ p hpres
  exact (htopo n hn hmem p hp hpres').2

/-- C3 witness: for the input where "b" depends on "a", "a" is placed
strictly before "b" in the execution order. -/
theorem buildExecutionPlan_topological_order_witness :
    List.indexOf "a" abPlan.executionOrder <
      List.indexOf "b" abPlan.executionOrder :=
  buildExecutionPlan_topological_order abInputs abPlan (by decide)
    ⟨"b", ["a"], .pending⟩ (by decide) "a" (by decide)
    ⟨⟨"a", [], .pending⟩, by decide, rfl⟩

/-- C4: if the dependency graph induced by the supplied items contains a
cycle — a chain of present edges from some id back to itself —
`buildExecutionPlan` throws the circular-dependency error and returns no
plan. -/
theorem buildExecutionPlan_cycle_error (inputs : List ChangeInput) (a : String)
    (l : List String)
    (hc : List.Chain (hasEdge (planNodes inputs)) a (l ++ [a])) :
    buildExecutionPlan inputs = .error circularMsg := by
  refine buildExecutionPlan_error_of_sort_error inputs ?_
  intro sorted hok
  obtain ⟨_, _, _, htopo⟩ := topologicalSort_spec _ sorted hok
  have hperm := topologicalSort_perm _ sorted hok
  have hstep : ∀ x y, hasEdge (planNodes inputs) x y →
      List.indexOf x sorted < List.indexOf y sorted := by
    rintro x y ⟨hpres, n, hn, he, hdep⟩
    have hmem : n.changeId ∈ sorted :=
      hperm.mem_iff.mpr (List.mem_map.mpr ⟨n, hn, rfl⟩)
    have hlt := (htopo n hn hmem x hdep hpres).2
    rwa [he] at hlt
  have hchain2 : List.Chain
      (fun x y => List.indexOf x sorted < List.indexOf y sorted) a (l ++ [a]) :=
    List.Chain.imp (fun x y hxy => hstep x y hxy) hc
  exact absurd (chain_lt_last _ l a a hchain2) (lt_irrefl _)

/-- C4 witness: mutual dependency between "a" and "b" makes
`buildExecutionPlan` fail with the circular-dependency error. -/
theorem buildExecutionPlan_cycle_error_witness :
    buildExecutionPlan [⟨"a", ["b"]⟩, ⟨"b", ["a"]⟩] = .error circularMsg :=
  buildExecutionPlan_cycle_error [⟨"a", ["b"]⟩, ⟨"b", ["a"]⟩] "a" ["b"]
    (List.Chain.cons
      ⟨by decide, ⟨"b", ["a"], .pending⟩, by decide, rfl, by decide⟩
      (List.Chain.cons
        ⟨by decide, ⟨"a", ["b"], .pending⟩, by decide, rfl, by decide⟩
        List.Chain.nil))

/-- C5 (counterexample): with the parallel-spawn call failing on a
two-node first batch, the run aborts: neither node is recorded `failed`
(both stay `ready`), no task is ever orchestrated, the later batch never
executes (node "c" stays `pending`), and all three ids are reported
failed — refuting the claim that a worker-spawn error is scoped to one
node. -/
theorem spawn_error_aborts_run_concrete :
    executeExecutionPlan twoBatchPlan spawnFailEnv =
      some { nodes := [⟨"a", [], .ready⟩, ⟨"b", [], .ready⟩,
               ⟨"c", [], .pending⟩]
             result :=
               { success := false
                 completedChanges := []
                 failedChanges := ["a", "b", "c"] }
             log := [.initPool, .spawnBatch ["a", "b"]] } := by
  decide

/-- C5 (amended): a task-submit error is scoped to one node.  When pool
init and every parallel spawn succeed, the run returns normally, every
batch is processed, and each batch-member node's final status depends only
on its own data: `blocked` if it has dependencies (none can complete,
since completion is never awaited), `failed` exactly when its own task
submission fails, `in-progress` otherwise — so a submission failure never
prevents sibling nodes or later batches from executing.  A worker-spawn
error, by contrast, aborts the whole run. -/
theorem submit_error_isolated_per_node (plan : ExecutionPlan) (env : Env)
    (hinit : env.initOk = true) (hspawn : ∀ k, env.spawnOk k = true) :
    ∃ out, executeExecutionPlan plan env = some out ∧
      ∀ n ∈ out.nodes, n.changeId ∈ plan.parallelBatches.flatten →
        n.status = nodeOutcome env n := by
  rw [executeExecutionPlan, if_pos hinit]
  refine ⟨_, rfl, ?_⟩
  obtain ⟨h1, _, _⟩ :=
    runBatches_char env hspawn plan.parallelBatches (initRunSt plan) rfl rfl
  intro n hn hmem
  rw [finishRun_nodes, h1] at hn
  obtain ⟨m, _, hrfl⟩ := List.mem_map.mp hn
  by_cases hc : plan.parallelBatches.flatten.contains m.changeId = true
  · rw [if_pos hc] at hrfl
    rw [← hrfl]
    rfl
  · rw [if_neg hc] at hrfl
    exfalso
    rw [← hrfl] at hmem
    exact hc ((contains_iff_mem _ _).mpr hmem)

/-- C5 witness: in a batch where "a"'s submission fails and "b"'s
succeeds, "a" ends failed and "b" still runs (in-progress). -/
theorem submit_error_isolated_per_node_witness :
    ∃ out, executeExecutionPlan pairPlan orchAFailEnv = some out ∧
      ∀ n ∈ out.nodes, n.changeId ∈ pairPlan.parallelBatches.flatten →
        n.status = nodeOutcome orchAFailEnv n :=
  submit_error_isolated_per_node pairPlan orchAFailEnv rfl (fun _ => rfl)

/-- C6 (counterexample): for the input whose single change depends on a
missing id "z", `buildExecutionPlan` returns a plan whose execution order
is ["a"] but whose batches are empty — the concatenation of the batches is
not a permutation of the order. -/
theorem batches_join_not_perm_of_order_concrete :
    buildExecutionPlan danglingInputs = .ok danglingPlan ∧
      ¬ List.Perm danglingPlan.parallelBatches.flatten
          danglingPlan.executionOrder := by
  constructor
  · decide
  · decide

/-- C6 (amended): for every input for which `buildExecutionPlan` returns a
plan and whose every `dependsOn` id refers to a supplied item (the plan
passes `validateExecutionPlan`), the concatenation of the parallel
batches, in order, is a permutation of the execution order. -/
theorem batches_join_perm_order_of_valid (inputs : List ChangeInput)
    (plan : ExecutionPlan) (h : buildExecutionPlan inputs = .ok plan)
    (hv : (validateExecutionPlan plan).1 = true) :
    List.Perm plan.parallelBatches.flatten plan.executionOrder := by
  obtain ⟨_, _, hbat⟩ := buildExecutionPlan_ok_parts inputs plan h
  rw [hbat, identifyParallelBatches]
  have hperm := batchLoop_flatten (planNodes inputs) plan.executionOrder [] []
    (plan_order_ready inputs plan h hv)
  simpa using hperm

/-- C6 witness: the join-permutation theorem applied to the two-change
input where "b" depends on "a". -/
theorem batches_join_perm_order_of_valid_witness :
    List.Perm abPlan.parallelBatches.flatten abPlan.executionOrder :=
  batches_join_perm_order_of_valid abInputs abPlan (by decide) (by decide)

/-- C7: in every plan `buildExecutionPlan` returns, two distinct ids
placed in the same parallel batch never directly depend on one another:
for any node record carrying one of the two ids, the other id is not in
its `dependsOn`. -/
theorem same_batch_no_direct_dependency (inputs : List ChangeInput)
    (plan : ExecutionPlan) (h : buildExecutionPlan inputs = .ok plan)
    (b : List String) (hb : b ∈ plan.parallelBatches) (x y : String)
    (hx : x ∈ b) (hy : y ∈ b) (hxy : x ≠ y)
    (n : Node) (hn : n ∈ plan.changes) (hny : n.changeId = y) :
    x ∉ n.dependsOn := by
  obtain ⟨hch, hts, hbat⟩ := buildExecutionPlan_ok_parts inputs plan h
  have hpf := identifyParallelBatches_pairFree (planNodes inputs)
    plan.executionOrder b (by rw [hbat] at hb; exact hb)
  obtain ⟨hnd, _, _, _⟩ := topologicalSort_spec _ _ hts
  have hperm := topologicalSort_perm _ _ hts
  have hchnd : ((planNodes inputs).map (fun n => n.changeId)).Nodup :=
    (hperm.nodup_iff).mp hnd
  have hget : nodeMapGet (planNodes inputs) n.changeId = some n :=
    nodeMapGet_eq_of_nodup _ hchnd n (by rw [hch] at hn; exact hn)
  have hdb := hpf x hx y hy hxy
  intro habs
  rw [← hny] at hdb
  have hde : dependsB (planNodes inputs) x n.changeId =
      n.dependsOn.contains x := by
    simp [dependsB, hget]
  rw [hde] at hdb
  have hct : n.dependsOn.contains x = true := (contains_iff_mem _ _).mpr habs
  rw [hct] at hdb
  exact Bool.noConfusion hdb

/-- C7 witness: in the plan for two independent changes, "a" and "b" share
a batch and "b"'s node does not depend on "a". -/
theorem same_batch_no_direct_dependency_witness :
    "a" ∉ (Node.mk "b" [] .pending).dependsOn :=
  same_batch_no_direct_dependency indepInputs
    { changes := [⟨"a", [], .pending⟩, ⟨"b", [], .pending⟩],
      executionOrder := ["a", "b"], parallelBatches := [["a", "b"]] }
    (by decide) ["a", "b"] (by decide) "a" "b" (by decide) (by decide)
    (by decide) ⟨"b", [], .pending⟩ (by decide) rfl

/-- C8: if the polled status never reaches a terminal value, then — with a
positive poll interval — `waitForTaskCompletion` returns
success = false and finalStatus = "timeout", and no exception escapes (the
function is total and returns this record). -/
theorem waitForTaskCompletion_timeout (poll : Nat → TaskStatus)
    (timeoutMs pollIntervalMs : Nat)
    (hterm : ∀ k, poll k ≠ .completed ∧ poll k ≠ .failed)
    (_hpos : 0 < pollIntervalMs) :
    (waitForTaskCompletion poll timeoutMs pollIntervalMs).success = false ∧
      (waitForTaskCompletion poll timeoutMs pollIntervalMs).finalStatus =
        "timeout" := by
  have hloop : ∀ fuel elapsed k,
      waitLoop poll timeoutMs pollIntervalMs fuel elapsed k =
        timeoutResult timeoutMs := by
    intro fuel
    induction fuel with
    | zero => intro elapsed k; rfl
    | succ f ih =>
        intro elapsed k
        rw [waitLoop]
        by_cases he : elapsed < timeoutMs
        · rw [if_pos he]
          cases hp : poll k with
          | completed => exact absurd hp (hterm k).1
          | failed => exact absurd hp (hterm k).2
          | pending => exact ih _ _
          | inProgress => exact ih _ _
        · rw [if_neg he]
  rw [waitForTaskCompletion, hloop]
  exact ⟨rfl, rfl⟩

/-- C8 witness: a task whose status is always in-progress times out with
success = false and finalStatus = "timeout". -/
theorem waitForTaskCompletion_timeout_witness :
    (waitForTaskCompletion (fun _ => .inProgress) 100 30).success = false ∧
      (waitForTaskCompletion (fun _ => .inProgress) 100 30).finalStatus =
        "timeout" :=
  waitForTaskCompletion_timeout (fun _ => .inProgress) 100 30
    (fun _ => ⟨fun hp => TaskStatus.noConfusion hp,
      fun hp => TaskStatus.noConfusion hp⟩) (by decide)

/-- C9: `validateExecutionPlan` returns valid = true exactly when every
`dependsOn` id occurs among the plan's nodes; and for each dangling entry
it returns valid = false together with an error string in the list that
mentions both the depending node's id and the missing id. -/
theorem validateExecutionPlan_spec (plan : ExecutionPlan) :
    ((validateExecutionPlan plan).1 = true ↔
      ∀ n ∈ plan.changes, ∀ dep ∈ n.dependsOn,
        hasNode plan.changes dep = true) ∧
    (∀ n ∈ plan.changes, ∀ dep ∈ n.dependsOn,
      hasNode plan.changes dep = false →
        (validateExecutionPlan plan).1 = false ∧
        vErrMsg n.changeId dep ∈ (validateExecutionPlan plan).2 ∧
        (∃ s t u, (vErrMsg n.changeId dep).data =
          s ++ n.changeId.data ++ t ++ dep.data ++ u)) := by
  refine ⟨validateExecutionPlan_valid_iff plan, ?_⟩
  intro n hn dep hdep hmiss
  refine ⟨?_, validate_error_mem plan n dep hn hdep hmiss, ?_⟩
  · cases hb : (validateExecutionPlan plan).1 with
    | false => rfl
    | true =>
        have hp := (validateExecutionPlan_valid_iff plan).mp hb n hn dep hdep
        rw [hmiss] at hp
        exact Bool.noConfusion hp
  · refine ⟨"Change ".data, " depends on ".data,
      (", but " ++ dep ++ " is not in the batch.").data, ?_⟩
    simp [vErrMsg, String.data_append]

/-- C9 witness: a plan whose node "A" depends on the missing id "Z" is
invalid and its error list contains the message naming both. -/
theorem validateExecutionPlan_spec_witness :
    (validateExecutionPlan vplan).1 = false ∧
      vErrMsg "A" "Z" ∈ (validateExecutionPlan vplan).2 := by
  have h := (validateExecutionPlan_spec vplan).2
    ⟨"A", ["Z"], .pending⟩ (by decide) "Z" (by decide) (by decide)
  exact ⟨h.1, h.2.1⟩

/-- C10: any input list whose change ids are not pairwise distinct makes
`buildExecutionPlan` throw the circular-dependency error — the sort emits
each distinct id at most once, so the sorted length can never equal the
node count. -/
theorem buildExecutionPlan_duplicate_ids_error (inputs : List ChangeInput)
    (hdup : ¬ (inputs.map (fun it => it.changeId)).Nodup) :
    buildExecutionPlan inputs = .error circularMsg := by
  refine buildExecutionPlan_error_of_sort_error inputs ?_
  intro sorted hok
  obtain ⟨hnd, _, _, _⟩ := topologicalSort_spec _ sorted hok
  have hperm := topologicalSort_perm _ sorted hok
  have hids : ((planNodes inputs).map (fun n => n.changeId)).Nodup :=
    (hperm.nodup_iff).mp hnd
  rw [planNodes_ids] at hids
  exact hdup hids

/-- C10 witness: two acyclic items sharing the id "a" make
`buildExecutionPlan` fail with the circular-dependency error. -/
theorem buildExecutionPlan_duplicate_ids_error_witness :
    buildExecutionPlan [⟨"a", []⟩, ⟨"a", []⟩] = .error circularMsg :=
  buildExecutionPlan_duplicate_ids_error [⟨"a", []⟩, ⟨"a", []⟩] (by decide)

end OSF

/-! Sanity evaluations of the embedding on the spec's end-to-end scenario
(items A: no deps, B: depends on A, C: no deps → order a permutation with
A and C before B, batches [[A, C], [B]]). -/

theorem endToEnd_scenario_eval :
    OSF.buildExecutionPlan [⟨"b", ["a"]⟩, ⟨"a", []⟩, ⟨"c", []⟩] =
      .ok { changes := [⟨"b", ["a"], .pending⟩, ⟨"a", [], .pending⟩,
              ⟨"c", [], .pending⟩]
            executionOrder := ["a", "c", "b"]
            parallelBatches := [["a", "c"], ["b"]] } := by decide

theorem validator_concrete_eval :
    OSF.validateExecutionPlan
      { changes := [⟨"A", ["Z"], .pending⟩], executionOrder := ["A"],
        parallelBatches := [["A"]] } =
      (false, ["Change A depends on Z, but Z is not in the batch."]) := by decide
